import Mathlib

/-!
Shallow embedding of `lib-python/2.7/urlparse.py` (URL decomposition,
reconstruction, relative resolution, percent-codecs, caches).

Strings are modelled as `List Char`; byte strings as `List Nat` (each
element a byte value < 256).  Python's `str.find` returning `-1` is
modelled with `Option Nat`; exceptions (`ValueError` for invalid IPv6
authorities) with `Except String`.
-/

namespace Urlparse

abbrev Str := List Char

/-- `uses_relative` scheme classification list from the source. -/
def uses_relative : List Str :=
  ["", "ftp", "http", "gopher", "nntp", "imap",
   "wais", "file", "https", "shttp", "mms",
   "prospero", "rtsp", "rtspu", "sftp",
   "svn", "svn+ssh", "ws", "wss"].map String.toList

/-- `uses_netloc` scheme classification list from the source. -/
def uses_netloc : List Str :=
  ["", "ftp", "http", "gopher", "nntp", "telnet",
   "imap", "wais", "file", "mms", "https", "shttp",
   "snews", "prospero", "rtsp", "rtspu", "rsync",
   "svn", "svn+ssh", "sftp", "nfs", "git", "git+ssh",
   "ws", "wss"].map String.toList

/-- `uses_params` scheme classification list from the source. -/
def uses_params : List Str :=
  ["", "ftp", "hdl", "prospero", "http", "imap",
   "https", "shttp", "rtsp", "rtspu", "sip", "sips",
   "mms", "sftp", "tel"].map String.toList

/-- Characters valid in scheme names (`scheme_chars` in the source). -/
def scheme_chars : Str :=
  ("abcdefghijklmnopqrstuvwxyz" ++
   "ABCDEFGHIJKLMNOPQRSTUVWXYZ" ++
   "0123456789" ++
   "+-.").toList

/-- `MAX_CACHE_SIZE = 20` from the source. -/
def MAX_CACHE_SIZE : Nat := 20

/-- `SplitResult(scheme, netloc, path, query, fragment)`. -/
structure SplitResult where
  scheme : Str
  netloc : Str
  path : Str
  query : Str
  fragment : Str
  deriving Repr, DecidableEq

/-- `ParseResult(scheme, netloc, path, params, query, fragment)`. -/
structure ParseResult where
  scheme : Str
  netloc : Str
  path : Str
  params : Str
  query : Str
  fragment : Str
  deriving Repr, DecidableEq

/-- Python `s.find(c)`: index of the first occurrence of `c`, `none` for `-1`. -/
def pyFind (c : Char) : Str → Option Nat
  | [] => none
  | x :: xs => if x = c then some 0 else (pyFind c xs).map (· + 1)

/-- Python `s.find(c, start)`: first occurrence of `c` at position `≥ start`. -/
def pyFindFrom (c : Char) (l : Str) (start : Nat) : Option Nat :=
  (pyFind c (l.drop start)).map (· + start)

/-- Python `s.rfind(c)`: index of the last occurrence of `c`, `none` for `-1`. -/
def pyRFind (c : Char) (l : Str) : Option Nat :=
  (pyFind c l.reverse).map (fun j => l.length - 1 - j)

/-- Python `s.split(c, 1)` when `c` occurs in `s`: the part before the first
occurrence of `c` and the part after it. -/
def splitFirst (c : Char) (l : Str) : Str × Str :=
  (l.takeWhile (fun x => x ≠ c), (l.dropWhile (fun x => x ≠ c)).drop 1)

/-- Python `s.split(c)` (split on every occurrence of `c`). -/
def pySplitAll (c : Char) : Str → List Str
  | [] => [[]]
  | x :: xs =>
    if x = c then [] :: pySplitAll c xs
    else
      match pySplitAll c xs with
      | [] => [[x]]
      | p :: ps => (x :: p) :: ps

/-- The delimiter position scanned by `_splitnetloc`: the earliest
occurrence of `/`, `?` or `#` at position `≥ start`, or the end of the
string when none occurs. -/
def netlocDelim (url : Str) (start : Nat) : Nat :=
  [('/' : Char), '?', '#'].foldl
    (fun d c => match pyFindFrom c url start with
      | some w => min d w
      | none => d) url.length

/-- `_splitnetloc(url, start)`: scan for the earliest of `/`, `?`, `#` at
position `≥ start`; return `(url[start:delim], url[delim:])`. -/
def _splitnetloc (url : Str) (start : Nat) : Str × Str :=
  ((url.drop start).take (netlocDelim url start - start),
   url.drop (netlocDelim url start))

/-- Unbalanced-IPv6-bracket test from `urlsplit`:
`'[' in netloc and ']' not in netloc or ']' in netloc and '[' not in netloc`. -/
def badBrackets (netloc : Str) : Prop :=
  ('[' ∈ netloc ∧ ']' ∉ netloc) ∨ (']' ∈ netloc ∧ '[' ∉ netloc)

instance (netloc : Str) : Decidable (badBrackets netloc) := by
  unfold badBrackets; infer_instance

/-- The netloc/fragment/query/path phase of `urlsplit` (the code duplicated
verbatim on the two scheme branches of the source, lines 334-344 and
352-361), applied after scheme handling. -/
def afterScheme (scheme url0 : Str) (allow_fragments : Bool) : Except String SplitResult :=
  let netloc := if url0.take 2 = ['/', '/'] then (_splitnetloc url0 2).1 else []
  let url1 := if url0.take 2 = ['/', '/'] then (_splitnetloc url0 2).2 else url0
  if badBrackets netloc then .error "Invalid IPv6 URL"
  else
    let url2 := if allow_fragments ∧ '#' ∈ url1 then (splitFirst '#' url1).1 else url1
    let fragment := if allow_fragments ∧ '#' ∈ url1 then (splitFirst '#' url1).2 else []
    let url3 := if '?' ∈ url2 then (splitFirst '?' url2).1 else url2
    let query := if '?' ∈ url2 then (splitFirst '?' url2).2 else []
    .ok ⟨scheme, netloc, url3, query, fragment⟩

/-- ASCII lowercasing of a string (Python `.lower()` restricted to the ASCII
scheme characters it is applied to here). -/
def pyLower (l : Str) : Str := l.map Char.toLower

/-- `urlsplit(url, scheme='', allow_fragments=True)` without the cache
(the cache only memoizes this pure computation; see `urlsplitCached`).
The first branch is the source's `url[:i] == 'http'` fast path; the second
is the general scheme-character validation loop. -/
def urlsplit (url scheme : Str) (allow_fragments : Bool) : Except String SplitResult :=
  match pyFind ':' url with
  | some i =>
    if 0 < i then
      if url.take i = ("http").toList then
        afterScheme (pyLower (url.take i)) (url.drop (i + 1)) allow_fragments
      else if (url.take i).all (fun c => c ∈ scheme_chars) then
        afterScheme (pyLower (url.take i)) (url.drop (i + 1)) allow_fragments
      else
        afterScheme scheme url allow_fragments
    else
      afterScheme scheme url allow_fragments
  | none => afterScheme scheme url allow_fragments

/-- The text remaining after `urlsplit`'s scheme removal (the `url` value at
line 352 of the source): the input with `scheme:` stripped when a scheme was
recognized, the input unchanged otherwise. -/
def schemeRest (url : Str) : Str :=
  match pyFind ':' url with
  | some i =>
    if 0 < i ∧ (url.take i = ("http").toList ∨
                (url.take i).all (fun c => c ∈ scheme_chars)) then
      url.drop (i + 1)
    else url
  | none => url

/-- `_splitparams(url)` from the source.  `url.find(';', url.rfind('/'))`
is the first `;` at or after the position of the last `/`.  The `none`
case of the no-slash branch models Python's `url[:-1], url[0:]` slicing
when `find` returns `-1` (callers guard `';' in url`, so it is unreachable
from `urlparse`). -/
def _splitparams (url : Str) : Str × Str :=
  if '/' ∈ url then
    match pyFindFrom ';' url ((pyRFind '/' url).getD 0) with
    | some i => (url.take i, url.drop (i + 1))
    | none => (url, [])
  else
    match pyFind ';' url with
    | some i => (url.take i, url.drop (i + 1))
    | none => (url.dropLast, url)

/-- `urlparse(url, scheme='', allow_fragments=True)`. -/
def urlparse (url scheme : Str) (allow_fragments : Bool) : Except String ParseResult :=
  match urlsplit url scheme allow_fragments with
  | .error e => .error e
  | .ok r =>
    if r.scheme ∈ uses_params ∧ ';' ∈ r.path then
      .ok ⟨r.scheme, r.netloc, (_splitparams r.path).1, (_splitparams r.path).2,
           r.query, r.fragment⟩
    else
      .ok ⟨r.scheme, r.netloc, r.path, [], r.query, r.fragment⟩

/-- The leading-slash fix used by `urlunsplit`: prefix the path with `/`
when it is non-empty and lacks one. -/
def slashfix (url : Str) : Str :=
  if url ≠ [] ∧ url.take 1 ≠ ['/'] then '/' :: url else url

/-- `urlunsplit((scheme, netloc, url, query, fragment))`. -/
def urlunsplit (scheme netloc url query fragment : Str) : Str :=
  let url :=
    if netloc ≠ [] ∨ (scheme ≠ [] ∧ scheme ∈ uses_netloc ∧ url.take 2 ≠ ['/', '/']) then
      ['/', '/'] ++ netloc ++ slashfix url
    else url
  let url := if scheme ≠ [] then scheme ++ ':' :: url else url
  let url := if query ≠ [] then url ++ '?' :: query else url
  if fragment ≠ [] then url ++ '#' :: fragment else url

/-- `urlunparse((scheme, netloc, url, params, query, fragment))`. -/
def urlunparse (scheme netloc url params query fragment : Str) : Str :=
  let url := if params ≠ [] then url ++ ';' :: params else url
  urlunsplit scheme netloc url query fragment

/-- One step of `urljoin`'s dot-segment walk: `..` pops the last stacked
segment (Python `resolved_path.pop()`, with the `IndexError` on an empty
stack caught and ignored), `.` is skipped, anything else is appended. -/
def rstep (acc : List Str) (seg : Str) : List Str :=
  if seg = (".." : String).toList then
    if acc = [] then acc else acc.dropLast
  else if seg = ("." : String).toList then acc
  else acc ++ [seg]

/-- `segments[1:-1] = filter(None, segments[1:-1])`: drop empty segments
strictly between the first and last position. -/
def filterMiddle (l : List Str) : List Str :=
  if l.length ≤ 1 then l
  else l.take 1 ++ ((l.dropLast.drop 1).filter (fun s => s ≠ [])) ++ l.drop (l.length - 1)

/-- The pure part of `urljoin` after both parses succeeded (`pb` for the
base, `pr` for the reference, `url` the original reference text). -/
def joinParsed (pb pr : ParseResult) (url : Str) : Str :=
  if pr.scheme ≠ pb.scheme ∨ pr.scheme ∉ uses_relative then url
  else if pr.scheme ∈ uses_netloc ∧ pr.netloc ≠ [] then
    urlunparse pr.scheme pr.netloc pr.path pr.params pr.query pr.fragment
  else
    let netloc := if pr.scheme ∈ uses_netloc then pb.netloc else pr.netloc
    if pr.path = [] ∧ pr.params = [] then
      let query := if pr.query = [] then pb.query else pr.query
      urlunparse pr.scheme netloc pb.path pb.params query pr.fragment
    else
      let base_parts := pySplitAll '/' pb.path
      let base_parts :=
        if base_parts.getLastD [] ≠ [] then base_parts.dropLast else base_parts
      let segments :=
        if pr.path.take 1 = ['/'] then pySplitAll '/' pr.path
        else filterMiddle (base_parts ++ pySplitAll '/' pr.path)
      let resolved_path := segments.foldl rstep []
      let resolved_path :=
        if segments.getLastD [] = ("." : String).toList ∨
           segments.getLastD [] = (".." : String).toList then
          resolved_path ++ [[]]
        else resolved_path
      let joined := List.intercalate ['/'] resolved_path
      urlunparse pr.scheme netloc (if joined = [] then ['/'] else joined)
        pr.params pr.query pr.fragment

/-- `urljoin(base, url, allow_fragments=True)`. -/
def urljoin (base url : Str) (allow_fragments : Bool) : Except String Str :=
  if base = [] then .ok url
  else if url = [] then .ok base
  else
    match urlparse base [] allow_fragments with
    | .error e => .error e
    | .ok pb =>
      match urlparse url pb.scheme allow_fragments with
      | .error e => .error e
      | .ok pr => .ok (joinParsed pb pr url)

/-! ### The module-level caches

`_parse_cache` maps `(url, scheme, allow_fragments)` keys to `SplitResult`
values (the `type(url), type(scheme)` key components of the source are
constant in this single-representation embedding); `_safe_quoters` is keyed
by normalized safe byte sets.  Both are modelled as association lists. -/

/-- The process-wide mutable state: `_parse_cache` and `_safe_quoters`. -/
structure CacheState where
  parse_cache : List ((Str × Str × Bool) × SplitResult)
  safe_quoters : List (List Nat)
  deriving Repr, DecidableEq

/-- `clear_cache()`: clear the parse cache and the quoters cache. -/
def clear_cache (_st : CacheState) : CacheState := ⟨[], []⟩

/-- Association-list lookup (Python `dict.get(key, None)`). -/
def cacheGet (key : Str × Str × Bool) :
    List ((Str × Str × Bool) × SplitResult) → Option SplitResult
  | [] => none
  | (k, v) :: rest => if k = key then some v else cacheGet key rest

/-- `urlsplit` with its cache, as in the source: a hit returns the cached
`SplitResult` (a `SplitResult` tuple is always truthy, so `if cached:` is a
presence test); a miss first clears both caches if the parse cache already
holds at least `MAX_CACHE_SIZE` entries, then computes (the computation is
exactly the pure `urlsplit` above) and inserts the result under the key.
A raised `ValueError` propagates before any insertion. -/
def urlsplitCached (url scheme : Str) (allow_fragments : Bool)
    (st : CacheState) : Except String SplitResult × CacheState :=
  match cacheGet (url, scheme, allow_fragments) st.parse_cache with
  | some v => (.ok v, st)
  | none =>
    let st2 := if MAX_CACHE_SIZE ≤ st.parse_cache.length then clear_cache st else st
    match urlsplit url scheme allow_fragments with
    | .error e => (.error e, st2)
    | .ok v =>
      (.ok v, { st2 with
        parse_cache := st2.parse_cache ++ [((url, scheme, allow_fragments), v)] })

/-! ### Percent-encoding codec (`quote_from_bytes`, `Quoter`) -/

/-- `_ALWAYS_SAFE`: ASCII letters, digits, `_`, `.`, `-`, `~`. -/
def _ALWAYS_SAFE : Str :=
  ("ABCDEFGHIJKLMNOPQRSTUVWXYZ" ++
   "abcdefghijklmnopqrstuvwxyz" ++
   "0123456789" ++
   "_.-~").toList

/-- `_ALWAYS_SAFE_BYTES`: the byte values of `_ALWAYS_SAFE`. -/
def _ALWAYS_SAFE_BYTES : List Nat := _ALWAYS_SAFE.map Char.toNat

/-- Uppercase hex digit for a value < 16 (from `'%%%02X' % ord(b[0])`). -/
def hexUpperDigit (n : Nat) : Char :=
  if n < 10 then Char.ofNat (48 + n) else Char.ofNat (55 + n)

/-- The `%XX` escape of a byte: `%` followed by two uppercase hex digits. -/
def pctEscape (b : Nat) : Str :=
  ['%', hexUpperDigit (b / 16), hexUpperDigit (b % 16)]

/-- `Quoter.__missing__` for safe set `_ALWAYS_SAFE.union(safe)`: a byte in
the set maps to its own single-character form, any other byte to its
uppercase `%XX` escape.  (The source memoizes these values per byte in a
`defaultdict`; the memo holds exactly this function's values.) -/
def quoterRes (safe : List Nat) (b : Nat) : Str :=
  if b ∈ _ALWAYS_SAFE_BYTES ∨ b ∈ safe then [Char.ofNat b]
  else pctEscape b

/-- Python `bytes.rstrip(set)`: drop trailing bytes belonging to `set`. -/
def pyRstrip (l : List Nat) (set : List Nat) : List Nat :=
  (l.reverse.dropWhile (fun b => b ∈ set)).reverse

/-- Normalization of the `safe` argument of `quote_from_bytes`: keep only
byte values < 128 (`bytes([c for c in safe if c < 128])`; the text branch
`safe.encode('ascii', 'ignore')` likewise drops values above 127). -/
def normSafe (safe : List Nat) : List Nat := safe.filter (fun b => b < 128)

/-- `quote_from_bytes(bs, safe='/')`.  Empty input returns the empty
string; if `bs.rstrip(_ALWAYS_SAFE_BYTES + safe)` is empty (every byte is
already safe), the input is returned decoded unchanged; otherwise each
byte is mapped through the quoter for this safe set and the results are
joined. -/
def quote_from_bytes (bs : List Nat) (safe : List Nat) : Str :=
  if bs = [] then []
  else
    let safe := normSafe safe
    if pyRstrip bs (_ALWAYS_SAFE_BYTES ++ safe) = [] then bs.map Char.ofNat
    else (bs.map (quoterRes safe)).flatten

/-! ### Percent-decoding codec (`unquote_to_bytes`, `_hextobyte`) -/

/-- `_hexdig = '0123456789ABCDEFabcdef'` as byte values. -/
def _hexdig : List Nat := ("0123456789ABCDEFabcdef").toList.map Char.toNat

/-- The value of one hex digit byte (either case), for members of `_hexdig`. -/
def hexVal (b : Nat) : Nat :=
  if b ≤ 57 then b - 48
  else if b ≤ 70 then b - 55
  else b - 87

/-- The `_hextobyte` table lookup: a two-byte key of hex digits (either
case) maps to the byte it denotes; any other key is absent.  The source
precomputes this as a dict over all 22 x 22 digit pairs. -/
def _hextobyte (key : List Nat) : Option Nat :=
  match key with
  | [a, b] =>
    if a ∈ _hexdig ∧ b ∈ _hexdig then some (16 * hexVal a + hexVal b)
    else none
  | _ => none

/-- Python `bytes.split(sep-byte)` (split on every occurrence). -/
def pySplitBytes (sep : Nat) : List Nat → List (List Nat)
  | [] => [[]]
  | x :: xs =>
    if x = sep then [] :: pySplitBytes sep xs
    else
      match pySplitBytes sep xs with
      | [] => [[x]]
      | p :: ps => (x :: p) :: ps

/-- Processing of one `%`-piece in `unquote_to_bytes`: look the first two
bytes up in `_hextobyte` and emit the decoded byte followed by the rest of
the piece; on a `KeyError` emit a literal `%` followed by the whole piece. -/
def procPiece (item : List Nat) : List Nat :=
  match _hextobyte (item.take 2) with
  | some b => b :: item.drop 2
  | none => 37 :: item

/-- `unquote_to_bytes(string)` on the byte representation (text input is
utf-8-encoded to bytes as its first step in the source): split on `%`
(byte 37); with no `%` present return the input; otherwise emit the first
piece and each later piece through `procPiece`. -/
def unquote_to_bytes (bs : List Nat) : List Nat :=
  let bits := pySplitBytes 37 bs
  if bits.length = 1 then bs
  else
    match bits with
    | [] => bs
    | b0 :: rest => b0 ++ (rest.map procPiece).flatten

/-! ### Spec-side definitions

These follow the spec's words (not the source) and exist to be compared
with the source-derived definitions above. -/

/-- Modelled from the spec's words for the percent-decoder's byte-level
step: scanning left to right, a `%` whose next two characters form a valid
hex pair (either case) becomes the denoted byte; a `%` whose following
characters are not a valid hex pair is emitted literally, followed by
those characters unchanged; all other bytes pass through unchanged. -/
def unquoteSpec : List Nat → List Nat
  | [] => []
  | c :: a :: b :: t =>
    if c = 37 then
      if a ∈ _hexdig ∧ b ∈ _hexdig then (16 * hexVal a + hexVal b) :: unquoteSpec t
      else 37 :: unquoteSpec (a :: b :: t)
    else c :: unquoteSpec (a :: b :: t)
  | c :: rest =>
    if c = 37 then 37 :: unquoteSpec rest
    else c :: unquoteSpec rest

/-- Modelled from the spec's words for the percent-encoder: normalize the
safe argument to the set of its byte values at most 127; a byte that is
always-safe or in that set appears as itself, every other byte as `%`
followed by two uppercase hex digits drawn from `0123456789ABCDEF`. -/
def quoteTokenSpec (safe : List Nat) (b : Nat) : Str :=
  let declaredSafe := safe.filter (fun x => x ≤ 127)
  if b ∈ _ALWAYS_SAFE_BYTES ∨ b ∈ declaredSafe then [Char.ofNat b]
  else
    ['%', ("0123456789ABCDEF").toList.getD (b / 16) ' ',
          ("0123456789ABCDEF").toList.getD (b % 16) ' ']

/-- Modelled from the claim's words for `_splitparams` (the claimed, wrong
reading): with a `/` present, split at the LAST `;` of the whole path
(necessarily after the last `/` when one exists there); without a `/`,
split at the first `;`. -/
def splitparamsClaimLast (url : Str) : Str × Str :=
  if '/' ∈ url then
    match pyRFind ';' url with
    | some i => if (pyRFind '/' url).getD 0 < i then (url.take i, url.drop (i + 1))
                else (url, [])
    | none => (url, [])
  else
    match pyFind ';' url with
    | some i => (url.take i, url.drop (i + 1))
    | none => (url, [])

/-- Modelled from the amended claim's words for `_splitparams`: with a `/`
present, split at the FIRST `;` occurring in the final `/`-segment (params
empty when that segment has no `;`); without a `/`, split at the first `;`
of the whole path. -/
def splitparamsSpecFirst (url : Str) : Str × Str :=
  if '/' ∈ url then
    let lastSeg := (pySplitAll '/' url).getLastD []
    if ';' ∈ lastSeg then
      (url.take (url.length - lastSeg.length) ++ lastSeg.takeWhile (fun c => c ≠ ';'),
       (lastSeg.dropWhile (fun c => c ≠ ';')).drop 1)
    else (url, [])
  else
    match pyFind ';' url with
    | some i => (url.take i, url.drop (i + 1))
    | none => (url, [])

/-- A 20-entry cache state with a nonempty quoter cache, used to witness
the overflow behaviour. -/
def fullCache : CacheState :=
  ⟨(List.range MAX_CACHE_SIZE).map
     (fun n => ((List.replicate n 'a', [], true), ⟨[], [], [], [], []⟩)),
   [[47]]⟩

/-- Uppercasing of an ASCII letter byte (identity on anything else). -/
def upperByte (b : Nat) : Nat := if 97 ≤ b ∧ b ≤ 122 then b - 32 else b

/-! ## Theorems -/

theorem pySplitBytes_ne_nil (sep : Nat) (l : List Nat) : pySplitBytes sep l ≠ [] := by
  cases l with
  | nil => simp [pySplitBytes]
  | cons x xs =>
    simp only [pySplitBytes]
    split
    · simp
    · cases h : pySplitBytes sep xs <;> simp

theorem pySplitBytes_singleton {sep : Nat} {l p : List Nat}
    (h : pySplitBytes sep l = [p]) : p = l := by
  induction l generalizing p with
  | nil =>
    simp only [pySplitBytes] at h
    injection h with h1 _
    exact h1.symm
  | cons x xs ih =>
    rcases hs : pySplitBytes sep xs with _ | ⟨q, qs⟩
    · exact absurd hs (pySplitBytes_ne_nil sep xs)
    · simp only [pySplitBytes, hs] at h
      split at h
      · simp at h
      · injection h with h1 h2
        subst h2
        rw [← h1, ih hs]

theorem utb_pieces {l p : List Nat} {ps : List (List Nat)}
    (h : pySplitBytes 37 l = p :: ps) :
    unquote_to_bytes l = p ++ (ps.map procPiece).flatten := by
  simp only [unquote_to_bytes, h]
  rcases ps with _ | ⟨q, qs⟩
  · simpa using (pySplitBytes_singleton h).symm
  · simp

theorem utb_cons_ne {c : Nat} (hc : c ≠ 37) (t : List Nat) :
    unquote_to_bytes (c :: t) = c :: unquote_to_bytes t := by
  rcases hs : pySplitBytes 37 t with _ | ⟨p, ps⟩
  · exact absurd hs (pySplitBytes_ne_nil 37 t)
  · have hsc : pySplitBytes 37 (c :: t) = (c :: p) :: ps := by
      simp only [pySplitBytes, if_neg hc, hs]
    rw [utb_pieces hsc, utb_pieces hs, List.cons_append]

theorem utb_cons_sep (t : List Nat) :
    unquote_to_bytes (37 :: t) = ((pySplitBytes 37 t).map procPiece).flatten := by
  rcases hs : pySplitBytes 37 t with _ | ⟨p, ps⟩
  · exact absurd hs (pySplitBytes_ne_nil 37 t)
  · have hsc : pySplitBytes 37 (37 :: t) = [] :: p :: ps := by
      simp [pySplitBytes, hs]
    rw [utb_pieces hsc]
    simp

theorem unquoteSpec_cons_ne {c : Nat} (hc : c ≠ 37) (t : List Nat) :
    unquoteSpec (c :: t) = c :: unquoteSpec t := by
  match t with
  | [] => simp [unquoteSpec, hc]
  | [a] => simp [unquoteSpec, hc]
  | a :: b :: t2 => simp [unquoteSpec, hc]

theorem unquoteSpec_sep_sep (t : List Nat) :
    unquoteSpec (37 :: 37 :: t) = 37 :: unquoteSpec (37 :: t) := by
  match t with
  | [] => simp [unquoteSpec]
  | b :: t2 =>
    have h37 : (37 : Nat) ∉ _hexdig := by decide
    simp [unquoteSpec, h37]

theorem utb_eq_spec_aux :
    ∀ (n : Nat) (l : List Nat), l.length ≤ n → unquote_to_bytes l = unquoteSpec l := by
  intro n
  induction n with
  | zero =>
    intro l hl
    have : l = [] := List.length_eq_zero.mp (Nat.le_zero.mp hl)
    subst this
    rfl
  | succ n ih =>
    intro l hl
    rcases l with _ | ⟨c, t⟩
    · rfl
    · by_cases hc : c = 37
      · subst hc
        rcases t with _ | ⟨a, t1⟩
        · rfl
        · by_cases ha : a = 37
          · subst ha
            have h1 : unquote_to_bytes (37 :: 37 :: t1) = 37 :: unquote_to_bytes (37 :: t1) := by
              rw [utb_cons_sep]
              rcases hs : pySplitBytes 37 t1 with _ | ⟨p, ps⟩
              · exact absurd hs (pySplitBytes_ne_nil 37 t1)
              · have hsc : pySplitBytes 37 (37 :: t1) = [] :: p :: ps := by
                  simp [pySplitBytes, hs]
                rw [hsc, utb_cons_sep, hs]
                simp [procPiece, _hextobyte]
            rw [h1, unquoteSpec_sep_sep, ih (37 :: t1) (by simp at hl ⊢; omega)]
          · rcases t1 with _ | ⟨b, t2⟩
            · -- l = [37, a] with a ≠ 37
              have hsc : pySplitBytes 37 [a] = [[a]] := by
                simp [pySplitBytes, if_neg ha]
              rw [utb_cons_sep, hsc]
              simp [procPiece, _hextobyte, unquoteSpec, ha]
            · by_cases hb : b = 37
              · subst hb
                -- l = 37 :: a :: 37 :: t2 with a ≠ 37
                have hsc : pySplitBytes 37 (a :: 37 :: t2) = [a] :: pySplitBytes 37 t2 := by
                  rcases hs : pySplitBytes 37 t2 with _ | ⟨p, ps⟩
                  · exact absurd hs (pySplitBytes_ne_nil 37 t2)
                  · simp [pySplitBytes, ha, hs]
                have h1 : unquote_to_bytes (37 :: a :: 37 :: t2)
                    = 37 :: a :: unquote_to_bytes (37 :: t2) := by
                  rw [utb_cons_sep, hsc, utb_cons_sep]
                  simp [procPiece, _hextobyte, ha]
                have h2 : unquoteSpec (37 :: a :: 37 :: t2)
                    = 37 :: a :: unquoteSpec (37 :: t2) := by
                  have h37 : (37 : Nat) ∉ _hexdig := by decide
                  simp [unquoteSpec, h37, unquoteSpec_cons_ne ha]
                rw [h1, h2, ih (37 :: t2) (by simp at hl ⊢; omega)]
              · -- l = 37 :: a :: b :: t2 with a ≠ 37, b ≠ 37
                rcases hs2 : pySplitBytes 37 t2 with _ | ⟨p, ps⟩
                · exact absurd hs2 (pySplitBytes_ne_nil 37 t2)
                · have hsab : pySplitBytes 37 (a :: b :: t2) = (a :: b :: p) :: ps := by
                    simp only [pySplitBytes, if_neg ha, if_neg hb, hs2]
                  by_cases hhex : a ∈ _hexdig ∧ b ∈ _hexdig
                  · have h1 : unquote_to_bytes (37 :: a :: b :: t2)
                        = (16 * hexVal a + hexVal b) :: unquote_to_bytes t2 := by
                      rw [utb_cons_sep, hsab, utb_pieces hs2]
                      simp [procPiece, _hextobyte, hhex]
                    have h2 : unquoteSpec (37 :: a :: b :: t2)
                        = (16 * hexVal a + hexVal b) :: unquoteSpec t2 := by
                      simp [unquoteSpec, hhex]
                    rw [h1, h2, ih t2 (by simp at hl ⊢; omega)]
                  · have h1 : unquote_to_bytes (37 :: a :: b :: t2)
                        = 37 :: unquote_to_bytes (a :: b :: t2) := by
                      rw [utb_cons_sep, hsab, utb_pieces hsab]
                      simp [procPiece, _hextobyte, hhex]
                    have h2 : unquoteSpec (37 :: a :: b :: t2)
                        = 37 :: unquoteSpec (a :: b :: t2) := by
                      simp [unquoteSpec, hhex]
                    rw [h1, h2, ih (a :: b :: t2) (by simp at hl ⊢; omega)]
      · rw [utb_cons_ne hc, unquoteSpec_cons_ne hc, ih t (by simp at hl ⊢; omega)]

theorem utb_eq_unquoteSpec (l : List Nat) : unquote_to_bytes l = unquoteSpec l :=
  utb_eq_spec_aux l.length l le_rfl

theorem utb_valid_escape {a b : Nat} (ha : a ∈ _hexdig) (hb : b ∈ _hexdig)
    (t : List Nat) :
    unquote_to_bytes (37 :: a :: b :: t)
      = (16 * hexVal a + hexVal b) :: unquote_to_bytes t := by
  rw [utb_eq_unquoteSpec, utb_eq_unquoteSpec]
  simp [unquoteSpec, ha, hb]

theorem char_toNat_ofNat {b : Nat} (h : b < 256) : (Char.ofNat b).toNat = b := by
  unfold Char.ofNat
  rw [dif_pos (Or.inl (by omega : b < 0xd800))]
  rfl

theorem pyRstrip_eq_nil {l set : List Nat} (h : pyRstrip l set = []) :
    ∀ b ∈ l, b ∈ set := by
  unfold pyRstrip at h
  have h2 := List.reverse_eq_nil_iff.mp h
  intro b hb
  have hb' : b ∈ l.reverse := List.mem_reverse.mpr hb
  have := List.dropWhile_eq_nil_iff.mp h2 b hb'
  simpa using this

theorem map_ofNat_eq_tokens {bs safe : List Nat}
    (h : ∀ b ∈ bs, b ∈ _ALWAYS_SAFE_BYTES ++ safe) :
    bs.map Char.ofNat = (bs.map (quoterRes safe)).flatten := by
  induction bs with
  | nil => rfl
  | cons b rest ih =>
    have hb := h b (by simp)
    have ht : quoterRes safe b = [Char.ofNat b] := by
      unfold quoterRes
      rw [if_pos (by simpa using hb)]
    simp only [List.map_cons, ht, List.flatten_cons, List.singleton_append]
    rw [ih (fun x hx => h x (by simp [hx]))]

theorem quote_eq_tokens (bs S : List Nat) :
    quote_from_bytes bs S = (bs.map (quoterRes (normSafe S))).flatten := by
  unfold quote_from_bytes
  by_cases hb : bs = []
  · simp [hb]
  · rw [if_neg hb]
    dsimp only
    by_cases hr : pyRstrip bs (_ALWAYS_SAFE_BYTES ++ normSafe S) = []
    · rw [if_pos hr]
      exact map_ofNat_eq_tokens (pyRstrip_eq_nil hr)
    · rw [if_neg hr]

theorem hexUpperDigit_getD {n : Nat} (h : n < 16) :
    ("0123456789ABCDEF").toList.getD n ' ' = hexUpperDigit n := by
  interval_cases n <;> rfl

theorem hexUpperDigit_mem {n : Nat} (h : n < 16) :
    (hexUpperDigit n).toNat ∈ _hexdig := by
  interval_cases n <;> decide

theorem hexUpperDigit_val {n : Nat} (h : n < 16) :
    hexVal ((hexUpperDigit n).toNat) = n := by
  interval_cases n <;> decide

theorem quoterRes_eq_spec (S : List Nat) {b : Nat} (hb : b < 256) :
    quoterRes (normSafe S) b = quoteTokenSpec S b := by
  have hfilter : normSafe S = S.filter (fun x => x ≤ 127) := by
    unfold normSafe
    apply List.filter_congr
    intro x _
    simp [Nat.lt_succ_iff]
  unfold quoterRes quoteTokenSpec pctEscape
  rw [hfilter]
  dsimp only
  split
  · rfl
  · rw [hexUpperDigit_getD (Nat.div_lt_of_lt_mul (by omega)),
        hexUpperDigit_getD (Nat.mod_lt b (by omega))]

theorem roundtrip_aux {safe : List Nat} (h37 : 37 ∉ safe) :
    ∀ bs : List Nat, (∀ b ∈ bs, b < 256) →
    unquote_to_bytes (((bs.map (quoterRes safe)).flatten).map Char.toNat) = bs := by
  intro bs hbs
  induction bs with
  | nil => rfl
  | cons b rest ih =>
    have hb : b < 256 := hbs b (by simp)
    have ihr := ih (fun x hx => hbs x (by simp [hx]))
    by_cases hsafe : b ∈ _ALWAYS_SAFE_BYTES ∨ b ∈ safe
    · have ht : quoterRes safe b = [Char.ofNat b] := by
        unfold quoterRes
        rw [if_pos hsafe]
      have hbne : b ≠ 37 := by
        rcases hsafe with h | h
        · intro he; subst he; exact absurd h (by decide)
        · intro he; subst he; exact h37 h
      simp only [List.map_cons, ht, List.flatten_cons, List.singleton_append]
      rw [char_toNat_ofNat hb, utb_cons_ne hbne, ihr]
    · have ht : quoterRes safe b = pctEscape b := by
        unfold quoterRes
        rw [if_neg hsafe]
      have hd1 : b / 16 < 16 := Nat.div_lt_of_lt_mul (by omega)
      have hd2 : b % 16 < 16 := Nat.mod_lt b (by omega)
      simp only [List.map_cons, ht, List.flatten_cons, pctEscape, List.cons_append,
        List.nil_append, List.map_cons]
      have h37c : ('%' : Char).toNat = 37 := rfl
      rw [h37c,
        utb_valid_escape (hexUpperDigit_mem hd1) (hexUpperDigit_mem hd2),
        hexUpperDigit_val hd1, hexUpperDigit_val hd2, ihr,
        Nat.div_add_mod b 16]

theorem upperByte_hexdig {a : Nat} (ha : a ∈ _hexdig) :
    upperByte a ∈ _hexdig ∧ hexVal (upperByte a) = hexVal a := by
  fin_cases ha <;> decide

/-- C2 counterexample: the round-trip law fails as stated when the safe set
declares the percent byte itself safe.  Encoding the bytes of `"%41"` with
safe set `{%}` leaves them untouched, and decoding then produces `"A"`. -/
theorem percent_roundtrip_cex :
    unquote_to_bytes ((quote_from_bytes [37, 52, 49] [37]).map Char.toNat)
      ≠ [37, 52, 49] := by
  decide

/-- C2 (amended): for every byte sequence `bs` and every safe set whose
normalized form does not contain the percent byte, decoding the
percent-encoding of `bs` yields `bs` again. -/
theorem percent_roundtrip (bs S : List Nat)
    (hbs : ∀ b ∈ bs, b < 256) (hS : 37 ∉ normSafe S) :
    unquote_to_bytes ((quote_from_bytes bs S).map Char.toNat) = bs := by
  rw [quote_eq_tokens]
  exact roundtrip_aux hS bs hbs

theorem percent_roundtrip_witness :
    unquote_to_bytes ((quote_from_bytes [104, 32, 255, 47] [47]).map Char.toNat)
      = [104, 32, 255, 47] :=
  percent_roundtrip [104, 32, 255, 47] [47] (by decide) (by decide)

/-- C3: `quote_from_bytes` normalizes its safe argument to the byte values
at most 127 and maps every input byte independently: a byte that is
always-safe or declared safe appears as itself, every other byte as its
two-uppercase-hex-digit `%XX` escape; under the default safe set `/` the
slash byte maps to itself unescaped. -/
theorem quote_tokens_spec (bs S : List Nat) (h : ∀ b ∈ bs, b < 256) :
    quote_from_bytes bs S = (bs.map (quoteTokenSpec S)).flatten ∧
    quoteTokenSpec [47] 47 = ['/'] := by
  refine ⟨?_, by decide⟩
  rw [quote_eq_tokens]
  congr 1
  exact List.map_congr_left (fun b hb => quoterRes_eq_spec S (h b hb))

theorem quote_tokens_spec_witness :
    quote_from_bytes [47, 97, 32, 200] [47]
      = (([47, 97, 32, 200].map (quoteTokenSpec [47])).flatten) ∧
    quoteTokenSpec [47] 47 = ['/'] :=
  quote_tokens_spec [47, 97, 32, 200] [47] (by decide)

/-- C8: the source decoder (split on `%`, table lookup per piece, `KeyError`
caught) agrees everywhere with the spec-shaped scanner `unquoteSpec`, in
which a `%` not followed by a valid hex pair is emitted literally with the
following characters unchanged; moreover any `%` followed by an invalid
pair contributes a literal `%` and leaves the rest to be decoded as if the
`%` were absent, and a `%` with fewer than two following characters passes
through verbatim.  The decoder is total: no input raises an error. -/
theorem unquote_malformed_passthrough (bs : List Nat) :
    unquote_to_bytes bs = unquoteSpec bs ∧
    (∀ a b t, (a ∈ _hexdig ∧ b ∈ _hexdig → False) →
      unquote_to_bytes (37 :: a :: b :: t) = 37 :: unquote_to_bytes (a :: b :: t)) ∧
    (∀ a, unquote_to_bytes [37, a] = [37, a]) ∧
    unquote_to_bytes [37] = [37] := by
  refine ⟨utb_eq_unquoteSpec bs, ?_, ?_, by decide⟩
  · intro a b t h
    rw [utb_eq_unquoteSpec, utb_eq_unquoteSpec]
    simp only [unquoteSpec, if_neg h, eq_self_iff_true, if_true]
  · intro a
    rw [utb_eq_unquoteSpec]
    by_cases ha : a = 37
    · subst ha; decide
    · simp [unquoteSpec, ha]

theorem unquote_malformed_passthrough_witness :
    unquote_to_bytes [37, 122, 122, 37, 52] = 37 :: unquote_to_bytes [122, 122, 37, 52] :=
  (unquote_malformed_passthrough []).2.1 122 122 [37, 52] (by decide)

/-- C10: decoding accepts both uppercase and lowercase hex digits: a `%`
followed by two hex digits (either case) decodes to the denoted byte, and
replacing the digits by their uppercase forms leaves the result unchanged
(in particular `%2f` and `%2F` both decode to `/`). -/
theorem unquote_hex_case_insensitive (a b : Nat) (t : List Nat)
    (ha : a ∈ _hexdig) (hb : b ∈ _hexdig) :
    unquote_to_bytes (37 :: a :: b :: t)
      = (16 * hexVal a + hexVal b) :: unquote_to_bytes t ∧
    unquote_to_bytes (37 :: a :: b :: t)
      = unquote_to_bytes (37 :: upperByte a :: upperByte b :: t) := by
  obtain ⟨ha', hva⟩ := upperByte_hexdig ha
  obtain ⟨hb', hvb⟩ := upperByte_hexdig hb
  refine ⟨utb_valid_escape ha hb t, ?_⟩
  rw [utb_valid_escape ha hb t, utb_valid_escape ha' hb' t, hva, hvb]

theorem unquote_hex_case_insensitive_witness :
    unquote_to_bytes [37, 50, 102] = [47] ∧
    unquote_to_bytes [37, 50, 102] = unquote_to_bytes [37, 50, 70] :=
  ⟨(unquote_hex_case_insensitive 50 102 [] (by decide) (by decide)).1.trans (by decide),
   (unquote_hex_case_insensitive 50 102 [] (by decide) (by decide)).2.trans (by decide)⟩

/-- C6: during dot-segment removal a `..` step pops the last stacked
segment when the stack is non-empty and is silently dropped when the stack
is empty (the `IndexError` is swallowed, and any run of `..` steps from the
empty stack stays empty); `resolve("http://a/b/c/d;p?q", "../../../g")`
is `"http://a/g"` with no error. -/
theorem dotdot_clamp (acc : List Str) (h : acc ≠ []) :
    rstep acc ((".." : String).toList) = acc.dropLast ∧
    rstep [] ((".." : String).toList) = [] ∧
    (∀ n, List.foldl rstep [] (List.replicate n ((".." : String).toList)) = []) ∧
    urljoin ("http://a/b/c/d;p?q").toList ("../../../g").toList true
      = .ok (("http://a/g").toList) := by
  refine ⟨by simp [rstep, h], rfl, ?_, rfl⟩
  intro n
  induction n with
  | zero => rfl
  | succ n ih =>
    rw [List.replicate_succ, List.foldl_cons,
      show rstep [] ((".." : String).toList) = [] from rfl]
    exact ih

theorem dotdot_clamp_witness :
    rstep [("b").toList] ((".." : String).toList) = [] := by
  rw [(dotdot_clamp [("b").toList] (by simp)).1]
  rfl

theorem urljoin_foreign_scheme {base url : Str} {af : Bool} {pb pr : ParseResult}
    (hbase : base ≠ []) (hurl : url ≠ [])
    (hpb : urlparse base [] af = .ok pb)
    (hpr : urlparse url pb.scheme af = .ok pr)
    (hs : pr.scheme ≠ pb.scheme ∨ pr.scheme ∉ uses_relative) :
    urljoin base url af = .ok url := by
  unfold urljoin
  rw [if_neg hbase, if_neg hurl]
  simp only [hpb, hpr]
  unfold joinParsed
  rw [if_pos hs]

/-- C5 counterexample: for a reference whose scheme is outside the
relative-resolution set, `urljoin` returns the reference text verbatim, not
its reconstruction: the reference `mailto:x?` (empty query) is returned
as-is, while the reconstruction of its six parsed components is
`mailto:x`. -/
theorem urljoin_reconstruction_cex :
    urljoin ("http://a/b").toList ("mailto:x?").toList true
      = .ok (("mailto:x?").toList) ∧
    (urlparse ("mailto:x?").toList ("http").toList true).map
      (fun pr => urlunparse pr.scheme pr.netloc pr.path pr.params pr.query pr.fragment)
      = .ok (("mailto:x").toList) ∧
    ("mailto:x?").toList ≠ ("mailto:x").toList :=
  ⟨rfl, rfl, by simp⟩

/-- C5 (amended): for non-empty base and reference, when the reference's
parsed scheme differs from the base's or is not relative-resolution
eligible, `urljoin` returns the reference string itself, unchanged (not its
reconstruction from components). -/
theorem urljoin_foreign_scheme_verbatim (base url : Str) (af : Bool)
    (pb pr : ParseResult)
    (hbase : base ≠ []) (hurl : url ≠ [])
    (hpb : urlparse base [] af = .ok pb)
    (hpr : urlparse url pb.scheme af = .ok pr)
    (hs : pr.scheme ≠ pb.scheme ∨ pr.scheme ∉ uses_relative) :
    urljoin base url af = .ok url :=
  urljoin_foreign_scheme hbase hurl hpb hpr hs

theorem urljoin_foreign_scheme_verbatim_witness :
    urljoin ("http://a/b").toList ("mailto:u@h").toList true
      = .ok (("mailto:u@h").toList) :=
  urljoin_foreign_scheme_verbatim ("http://a/b").toList ("mailto:u@h").toList true
    ⟨("http").toList, ("a").toList, ("/b").toList, [], [], []⟩
    ⟨("mailto").toList, [], ("u@h").toList, [], [], []⟩
    (by simp) (by simp) rfl rfl (by simp [uses_relative])

/-- C9 counterexample: resolution is not idempotent for the absolute
reference `http:?q` against base `http:/../x`: the first resolution gives
`http:///../x?q`, and resolving that result against the same base gives
`http:///x?q`. -/
theorem urljoin_idempotence_cex :
    urljoin ("http:/../x").toList ("http:?q").toList true
      = .ok (("http:///../x?q").toList) ∧
    (urlsplit ("http:?q").toList [] true).map SplitResult.scheme
      = .ok (("http").toList) ∧
    urljoin ("http:/../x").toList ("http:///../x?q").toList true
      = .ok (("http:///x?q").toList) ∧
    ("http:///../x?q").toList ≠ ("http:///x?q").toList :=
  ⟨rfl, rfl, rfl, by simp⟩


/-- C7: the decomposition cache never exceeds `MAX_CACHE_SIZE` (20)
entries, and a miss against a cache already at (or above) the bound clears
both the parse cache and the quoter cache entirely before inserting: after
such a call the quoter cache is empty and no key other than the one just
requested is present, so every previously cached key must be recomputed. -/
theorem parse_cache_bound (url scheme : Str) (af : Bool) (st : CacheState)
    (hle : st.parse_cache.length ≤ MAX_CACHE_SIZE) :
    (urlsplitCached url scheme af st).2.parse_cache.length ≤ MAX_CACHE_SIZE ∧
    (cacheGet (url, scheme, af) st.parse_cache = none →
      MAX_CACHE_SIZE ≤ st.parse_cache.length →
      (urlsplitCached url scheme af st).2.safe_quoters = [] ∧
      ∀ k, k ≠ (url, scheme, af) →
        cacheGet k (urlsplitCached url scheme af st).2.parse_cache = none) := by
  unfold urlsplitCached
  dsimp only
  cases hget : cacheGet (url, scheme, af) st.parse_cache with
  | some v => exact ⟨hle, fun hmiss _ => Option.noConfusion hmiss⟩
  | none =>
    by_cases hfull : MAX_CACHE_SIZE ≤ st.parse_cache.length
    · rw [if_pos hfull]
      cases hres : urlsplit url scheme af with
      | error e =>
        exact ⟨by simp [clear_cache, MAX_CACHE_SIZE],
          fun _ _ => ⟨rfl, fun k hk => rfl⟩⟩
      | ok v =>
        refine ⟨by simp [clear_cache, MAX_CACHE_SIZE], fun _ _ => ⟨rfl, fun k hk => ?_⟩⟩
        show cacheGet k ((clear_cache st).parse_cache ++ [((url, scheme, af), v)]) = none
        simp only [clear_cache, List.nil_append]
        unfold cacheGet
        rw [if_neg (fun he => hk he.symm)]
        rfl
    · rw [if_neg hfull]
      cases hres : urlsplit url scheme af with
      | error e => exact ⟨hle, fun _ hfull2 => absurd hfull2 hfull⟩
      | ok v =>
        refine ⟨?_, fun _ hfull2 => absurd hfull2 hfull⟩
        show (st.parse_cache ++ [((url, scheme, af), v)]).length ≤ MAX_CACHE_SIZE
        simp only [List.length_append, List.length_cons, List.length_nil]
        unfold MAX_CACHE_SIZE at hfull ⊢
        omega

theorem parse_cache_bound_witness :
    (urlsplitCached ("b").toList [] true fullCache).2.parse_cache.length
      ≤ MAX_CACHE_SIZE ∧
    (urlsplitCached ("b").toList [] true fullCache).2.safe_quoters = [] ∧
    cacheGet (("c").toList, [], true)
      (urlsplitCached ("b").toList [] true fullCache).2.parse_cache = none := by
  have h := parse_cache_bound ("b").toList [] true fullCache (by decide)
  obtain ⟨hq, hk⟩ := h.2 (by decide) (by decide)
  exact ⟨h.1, hq, hk (("c").toList, [], true) (by decide)⟩

theorem afterScheme_error_iff (scheme u : Str) (af : Bool) :
    afterScheme scheme u af = .error "Invalid IPv6 URL"
      ↔ (u.take 2 = ['/', '/'] ∧ badBrackets (_splitnetloc u 2).1) := by
  unfold afterScheme
  dsimp only
  by_cases h2 : u.take 2 = ['/', '/']
  · simp only [if_pos h2]
    by_cases hbb : badBrackets (_splitnetloc u 2).1
    · rw [if_pos hbb]
      simp [h2, hbb]
    · rw [if_neg hbb]
      simp [h2, hbb]
  · simp only [if_neg h2]
    rw [if_neg (by decide : ¬ badBrackets ([] : Str))]
    simp [h2]

theorem afterScheme_error_unique {scheme u : Str} {af : Bool} {e : String}
    (h : afterScheme scheme u af = .error e) : e = "Invalid IPv6 URL" := by
  unfold afterScheme at h
  dsimp only at h
  split at h <;> split at h <;>
    first
    | (injection h with h1; exact h1.symm)
    | simp at h

theorem urlsplit_eq_afterScheme (url scheme : Str) (af : Bool) :
    ∃ s, urlsplit url scheme af = afterScheme s (schemeRest url) af := by
  unfold urlsplit schemeRest
  cases hi : pyFind ':' url with
  | none => exact ⟨scheme, rfl⟩
  | some i =>
    dsimp only
    by_cases h0 : 0 < i
    · by_cases hhttp : url.take i = ("http").toList
      · exact ⟨pyLower (url.take i),
          by rw [if_pos h0, if_pos hhttp, if_pos ⟨h0, Or.inl hhttp⟩]⟩
      · by_cases hall : (url.take i).all (fun c => c ∈ scheme_chars)
        · exact ⟨pyLower (url.take i),
            by rw [if_pos h0, if_neg hhttp, if_pos hall, if_pos ⟨h0, Or.inr hall⟩]⟩
        · exact ⟨scheme,
            by rw [if_pos h0, if_neg hhttp, if_neg hall,
                   if_neg (fun hcond => hcond.2.elim hhttp hall)]⟩
    · exact ⟨scheme, by rw [if_neg h0, if_neg (fun hcond => h0 hcond.1)]⟩

/-- C1: `urlsplit` raises `ValueError` (Invalid IPv6 URL) exactly when the
text remaining after scheme removal begins with `//` and the extracted
authority contains `[` without `]` or `]` without `[`; on every other input
no error is raised and a `SplitResult` is returned. -/
theorem urlsplit_invalid_ipv6_iff (url scheme : Str) (af : Bool) :
    (urlsplit url scheme af = .error "Invalid IPv6 URL"
      ↔ ((schemeRest url).take 2 = ['/', '/'] ∧
         badBrackets (_splitnetloc (schemeRest url) 2).1)) ∧
    (¬((schemeRest url).take 2 = ['/', '/'] ∧
       badBrackets (_splitnetloc (schemeRest url) 2).1) →
      ∃ r, urlsplit url scheme af = .ok r) := by
  obtain ⟨s, hs⟩ := urlsplit_eq_afterScheme url scheme af
  rw [hs]
  refine ⟨afterScheme_error_iff s (schemeRest url) af, fun hnot => ?_⟩
  cases hres : afterScheme s (schemeRest url) af with
  | ok r => exact ⟨r, rfl⟩
  | error e =>
    have he := afterScheme_error_unique hres
    subst he
    exact absurd ((afterScheme_error_iff s (schemeRest url) af).mp hres) hnot

theorem pyFind_append_sep (c : Char) (a b : Str) (h : c ∉ a) :
    pyFind c (a ++ c :: b) = some a.length := by
  induction a with
  | nil => simp [pyFind]
  | cons x a' ih =>
    have hx : x ≠ c := fun he => h (he ▸ List.mem_cons_self x a')
    have ha' : c ∉ a' := fun hm => h (List.mem_cons_of_mem x hm)
    simp [pyFind, hx, ih ha']

theorem pyFind_eq_none {c : Char} {l : Str} (h : c ∉ l) : pyFind c l = none := by
  induction l with
  | nil => rfl
  | cons x xs ih =>
    have hx : x ≠ c := fun he => h (he ▸ List.mem_cons_self x xs)
    simp [pyFind, hx, ih (fun hm => h (List.mem_cons_of_mem x hm))]

theorem mem_decomp_first {c : Char} {l : Str} (h : c ∈ l) :
    ∃ a b, l = a ++ c :: b ∧ c ∉ a := by
  induction l with
  | nil => cases h
  | cons x xs ih =>
    by_cases hx : x = c
    · exact ⟨[], xs, by rw [hx]; rfl, by simp⟩
    · have hm : c ∈ xs := by
        rcases List.mem_cons.mp h with he | hm
        · exact absurd he.symm hx
        · exact hm
      obtain ⟨a, b, hab, hna⟩ := ih hm
      exact ⟨x :: a, b, by rw [hab]; rfl, by
        intro hmem
        rcases List.mem_cons.mp hmem with he | hm2
        · exact hx he.symm
        · exact hna hm2⟩

theorem mem_decomp_last {c : Char} {l : Str} (h : c ∈ l) :
    ∃ a b, l = a ++ c :: b ∧ c ∉ b := by
  obtain ⟨a, b, hab, hna⟩ := mem_decomp_first (List.mem_reverse.mpr h)
  refine ⟨b.reverse, a.reverse, ?_, fun hm => hna (List.mem_reverse.mp hm)⟩
  have := congrArg List.reverse hab
  simpa using this

theorem pyRFind_append_sep (c : Char) (pre suf : Str) (h : c ∉ suf) :
    pyRFind c (pre ++ c :: suf) = some pre.length := by
  unfold pyRFind
  have hrev : (pre ++ c :: suf).reverse = suf.reverse ++ c :: pre.reverse := by
    simp
  rw [hrev, pyFind_append_sep c _ _ (fun hm => h (List.mem_reverse.mp hm))]
  simp only [Option.map_some']
  congr 1
  simp only [List.length_append, List.length_cons, List.length_reverse]
  omega

theorem takeWhile_append_sep (c : Char) (a b : Str) (h : c ∉ a) :
    (a ++ c :: b).takeWhile (fun x => x ≠ c) = a ∧
    (a ++ c :: b).dropWhile (fun x => x ≠ c) = c :: b := by
  induction a with
  | nil => simp [List.takeWhile, List.dropWhile]
  | cons x a' ih =>
    have hx : x ≠ c := fun he => h (he ▸ List.mem_cons_self x a')
    have ha' : c ∉ a' := fun hm => h (List.mem_cons_of_mem x hm)
    obtain ⟨h1, h2⟩ := ih ha'
    constructor
    · simp only [List.cons_append, List.takeWhile_cons]
      rw [if_pos (by simp [hx]), h1]
    · simp only [List.cons_append, List.dropWhile_cons]
      rw [if_pos (by simp [hx]), h2]

theorem pySplitAll_ne_nil (c : Char) (l : Str) : pySplitAll c l ≠ [] := by
  cases l with
  | nil => simp [pySplitAll]
  | cons x xs =>
    simp only [pySplitAll]
    split
    · simp
    · cases h : pySplitAll c xs <;> simp

theorem pySplitAll_no_sep {c : Char} {l : Str} (h : c ∉ l) : pySplitAll c l = [l] := by
  induction l with
  | nil => rfl
  | cons x xs ih =>
    have hx : x ≠ c := fun he => h (he ▸ List.mem_cons_self x xs)
    have hxs := ih (fun hm => h (List.mem_cons_of_mem x hm))
    simp [pySplitAll, hx, hxs]

theorem pySplitAll_cons_sep (c : Char) (xs : Str) :
    pySplitAll c (c :: xs) = [] :: pySplitAll c xs := by
  simp [pySplitAll]

theorem pySplitAll_cons_ne {c x : Char} (hx : x ≠ c) {xs p : Str} {ps : List Str}
    (h : pySplitAll c xs = p :: ps) :
    pySplitAll c (x :: xs) = (x :: p) :: ps := by
  rw [show pySplitAll c (x :: xs)
      = if x = c then [] :: pySplitAll c xs
        else match pySplitAll c xs with
          | [] => [[x]]
          | p :: ps => (x :: p) :: ps from rfl,
    if_neg hx, h]

theorem pySplitAll_two_le {c : Char} {l : Str} (h : c ∈ l) :
    2 ≤ (pySplitAll c l).length := by
  induction l with
  | nil => cases h
  | cons x xs ih =>
    by_cases hx : x = c
    · subst hx
      rw [pySplitAll_cons_sep, List.length_cons]
      have h1 : 1 ≤ (pySplitAll x xs).length :=
        List.length_pos.mpr (pySplitAll_ne_nil x xs)
      omega
    · have hm : c ∈ xs := by
        rcases List.mem_cons.mp h with he | hm
        · exact absurd he.symm hx
        · exact hm
      have h2 := ih hm
      rcases hs : pySplitAll c xs with _ | ⟨p, ps⟩
      · exact absurd hs (pySplitAll_ne_nil c xs)
      · rw [pySplitAll_cons_ne hx hs]
        rw [hs] at h2
        simp only [List.length_cons] at h2 ⊢
        omega

theorem getLastD_cons_of_ne_nil {α : Type} (x : α) {l : List α} (h : l ≠ [])
    (d : α) : (x :: l).getLastD d = l.getLastD d := by
  cases l with
  | nil => exact absurd rfl h
  | cons y l' => rfl

theorem pySplitAll_getLastD {c : Char} (pre : Str) {suf : Str} (h : c ∉ suf) :
    (pySplitAll c (pre ++ c :: suf)).getLastD [] = suf := by
  induction pre with
  | nil =>
    rw [List.nil_append, pySplitAll_cons_sep,
      getLastD_cons_of_ne_nil _ (pySplitAll_ne_nil c suf), pySplitAll_no_sep h]
    rfl
  | cons x pre' ih =>
    by_cases hx : x = c
    · subst hx
      rw [List.cons_append, pySplitAll_cons_sep,
        getLastD_cons_of_ne_nil _ (pySplitAll_ne_nil x (pre' ++ x :: suf))]
      exact ih
    · rcases hs : pySplitAll c (pre' ++ c :: suf) with _ | ⟨p, ps⟩
      · exact absurd hs (pySplitAll_ne_nil c _)
      · have hps : ps ≠ [] := by
          intro he
          have h2 := @pySplitAll_two_le c (pre' ++ c :: suf) (by simp)
          rw [hs, he] at h2
          simp at h2
        rw [List.cons_append, pySplitAll_cons_ne hx hs,
          getLastD_cons_of_ne_nil _ hps]
        rw [hs, getLastD_cons_of_ne_nil _ hps] at ih
        exact ih

/-- C4 counterexample: for the parameter-using scheme `http` and post-split
path `/a;b;c`, the code splits at the FIRST `;` found at or after the last
`/` (path `/a`, params `b;c`), while a split at the last `;` after the
last `/` would give path `/a;b` and params `c`. -/
theorem splitparams_last_cex :
    urlparse ("http://h/a;b;c").toList [] true
      = .ok ⟨("http").toList, ("h").toList, ("/a").toList,
             ("b;c").toList, [], []⟩ ∧
    splitparamsClaimLast ("/a;b;c").toList = (("/a;b").toList, ("c").toList) ∧
    ((("/a").toList, ("b;c").toList) : Str × Str)
      ≠ ((("/a;b").toList, ("c").toList) : Str × Str) :=
  ⟨rfl, rfl, by decide⟩

/-- C4 (amended): for every path containing `;`, `_splitparams` splits at
the FIRST `;` occurring in the final `/`-segment when a `/` is present
(params are empty when that segment has no `;`), and at the first `;` of
the whole path when no `/` is present. -/
theorem splitparams_eq_specFirst (u : Str) (hsemi : ';' ∈ u) :
    _splitparams u = splitparamsSpecFirst u := by
  unfold _splitparams splitparamsSpecFirst
  dsimp only
  by_cases hslash : '/' ∈ u
  · rw [if_pos hslash, if_pos hslash]
    obtain ⟨pre, suf, hu, hnsuf⟩ := mem_decomp_last hslash
    subst hu
    rw [pyRFind_append_sep '/' pre suf hnsuf]
    simp only [Option.getD_some]
    rw [pySplitAll_getLastD pre hnsuf]
    by_cases hsem2 : ';' ∈ suf
    · obtain ⟨s1, s2, hsuf, hns1⟩ := mem_decomp_first hsem2
      subst hsuf
      have hns1' : ';' ∉ ('/' :: s1 : Str) := by
        intro hm
        rcases List.mem_cons.mp hm with he | hm2
        · exact absurd he (by decide)
        · exact hns1 hm2
      have hfind : pyFindFrom ';' (pre ++ '/' :: (s1 ++ ';' :: s2)) pre.length
          = some (s1.length + 1 + pre.length) := by
        unfold pyFindFrom
        rw [List.drop_left pre ('/' :: (s1 ++ ';' :: s2))]
        rw [show ('/' :: (s1 ++ ';' :: s2) : Str) = ('/' :: s1) ++ ';' :: s2 from rfl]
        rw [pyFind_append_sep ';' ('/' :: s1) s2 hns1']
        simp only [Option.map_some', List.length_cons]
      simp only [hfind]
      rw [if_pos (show (';' : Char) ∈ s1 ++ ';' :: s2 by simp)]
      have htake : (pre ++ '/' :: (s1 ++ ';' :: s2)).take (s1.length + 1 + pre.length)
          = pre ++ '/' :: s1 := by
        rw [show pre ++ '/' :: (s1 ++ ';' :: s2) = (pre ++ '/' :: s1) ++ ';' :: s2
          by simp]
        exact List.take_left' (by simp [List.length_append]; omega)
      have hdropi : (pre ++ '/' :: (s1 ++ ';' :: s2)).drop (s1.length + 1 + pre.length + 1)
          = s2 := by
        rw [show pre ++ '/' :: (s1 ++ ';' :: s2) = ((pre ++ '/' :: s1) ++ [';']) ++ s2
          by simp]
        exact List.drop_left' (by simp [List.length_append]; omega)
      have hspeclen : (pre ++ '/' :: (s1 ++ ';' :: s2)).length
          - (s1 ++ ';' :: s2).length = pre.length + 1 := by
        simp only [List.length_append, List.length_cons]
        omega
      have hspectake : (pre ++ '/' :: (s1 ++ ';' :: s2)).take (pre.length + 1)
          = pre ++ ['/'] := by
        rw [show pre ++ '/' :: (s1 ++ ';' :: s2) = (pre ++ ['/']) ++ (s1 ++ ';' :: s2)
          by simp]
        exact List.take_left' (by simp)
      obtain ⟨hTW, hDW⟩ := takeWhile_append_sep ';' s1 s2 hns1
      rw [htake, hdropi, hspeclen, hspectake, hTW, hDW]
      simp
    · have hfindn : pyFindFrom ';' (pre ++ '/' :: suf) pre.length = none := by
        unfold pyFindFrom
        rw [List.drop_left pre ('/' :: suf)]
        rw [show pyFind ';' ('/' :: suf) = (pyFind ';' suf).map (· + 1) by
          simp [pyFind]]
        rw [pyFind_eq_none hsem2]
        rfl
      simp only [hfindn]
      rw [if_neg hsem2]
  · rw [if_neg hslash, if_neg hslash]
    obtain ⟨a, b, hu, hna⟩ := mem_decomp_first hsemi
    subst hu
    rw [pyFind_append_sep ';' a b hna]

theorem splitparams_eq_specFirst_witness :
    _splitparams ("/p/x;y;z").toList = splitparamsSpecFirst ("/p/x;y;z").toList :=
  splitparams_eq_specFirst ("/p/x;y;z").toList (by decide)

theorem urlsplit_invalid_ipv6_iff_witness :
    urlsplit ("http://[::1/x").toList [] true = .error "Invalid IPv6 URL" ∧
    ∃ r, urlsplit ("//h/p").toList [] true = .ok r :=
  ⟨(urlsplit_invalid_ipv6_iff ("http://[::1/x").toList [] true).1.mpr (by decide),
   (urlsplit_invalid_ipv6_iff ("//h/p").toList [] true).2 (by decide)⟩

theorem pyFind_append_of_not_mem (c : Char) {a : Str} (b : Str) (h : c ∉ a) :
    pyFind c (a ++ b) = (pyFind c b).map (· + a.length) := by
  induction a with
  | nil => simp
  | cons x a' ih =>
    have hx : x ≠ c := fun he => h (he ▸ List.mem_cons_self x a')
    have ha' : c ∉ a' := fun hm => h (List.mem_cons_of_mem x hm)
    rw [List.cons_append,
      show pyFind c (x :: (a' ++ b))
        = if x = c then some 0 else (pyFind c (a' ++ b)).map (· + 1) from rfl,
      if_neg hx, ih ha']
    cases pyFind c b with
    | none => rfl
    | some v =>
      simp only [Option.map_some', List.length_cons, Option.some.injEq]
      omega

theorem pyFind_lt_of_mem_take {c : Char} {l : Str} {k : Nat}
    (h : c ∈ l.take k) : ∃ j, pyFind c l = some j ∧ j < k := by
  induction l generalizing k with
  | nil => simp at h
  | cons x xs ih =>
    cases k with
    | zero => simp at h
    | succ k' =>
      simp only [List.take_succ_cons] at h
      by_cases hx : x = c
      · exact ⟨0, by simp [pyFind, hx], by omega⟩
      · have hm : c ∈ xs.take k' := by
          rcases List.mem_cons.mp h with he | hm
          · exact absurd he.symm hx
          · exact hm
        obtain ⟨j, hj, hjk⟩ := ih hm
        exact ⟨j + 1, by simp [pyFind, hx, hj], by omega⟩

theorem slashfix_nil : slashfix [] = [] := rfl

theorem slashfix_head {u : Str} (h : u ≠ []) : (slashfix u).take 1 = ['/'] := by
  unfold slashfix
  by_cases h1 : u.take 1 = ['/']
  · rw [if_neg (by simp [h1])]
    exact h1
  · rw [if_pos ⟨h, h1⟩]
    rfl

theorem slashfix_of_head {u : Str} (h : u.take 1 = ['/']) : slashfix u = u := by
  unfold slashfix
  rw [if_neg (by simp [h])]

theorem slashfix_idem (u : Str) : slashfix (slashfix u) = slashfix u := by
  by_cases h : u = []
  · rw [h, slashfix_nil, slashfix_nil]
  · exact slashfix_of_head (slashfix_head h)

theorem mem_slashfix {c : Char} {u : Str} (h : c ∈ slashfix u) :
    c ∈ u ∨ c = '/' := by
  unfold slashfix at h
  split at h
  · rcases List.mem_cons.mp h with he | hm
    · exact Or.inr he
    · exact Or.inl hm
  · exact Or.inl h

theorem netlocDelim_le_length (u : Str) (start : Nat) :
    netlocDelim u start ≤ u.length := by
  unfold netlocDelim
  simp only [List.foldl_cons, List.foldl_nil]
  cases pyFindFrom '/' u start <;> cases pyFindFrom '?' u start <;>
    cases pyFindFrom '#' u start <;> simp <;> omega

theorem netlocDelim_le_of_find {u : Str} {start w : Nat} {c : Char}
    (hc : c = '/' ∨ c = '?' ∨ c = '#') (h : pyFindFrom c u start = some w) :
    netlocDelim u start ≤ w := by
  unfold netlocDelim
  simp only [List.foldl_cons, List.foldl_nil]
  rcases hc with rfl | rfl | rfl
  · rw [h]
    cases pyFindFrom '?' u start <;> cases pyFindFrom '#' u start <;>
      simp <;> omega
  · rw [h]
    cases pyFindFrom '/' u start <;> cases pyFindFrom '#' u start <;>
      simp <;> omega
  · rw [h]
    cases pyFindFrom '/' u start <;> cases pyFindFrom '?' u start <;>
      simp <;> omega

theorem le_netlocDelim {u : Str} {start m : Nat}
    (hlen : m ≤ u.length)
    (h : ∀ c, (c = '/' ∨ c = '?' ∨ c = '#') →
      ∀ w, pyFindFrom c u start = some w → m ≤ w) :
    m ≤ netlocDelim u start := by
  unfold netlocDelim
  simp only [List.foldl_cons, List.foldl_nil]
  have h1 := h '/' (by simp)
  have h2 := h '?' (by simp)
  have h3 := h '#' (by simp)
  cases hf1 : pyFindFrom '/' u start <;> cases hf2 : pyFindFrom '?' u start <;>
    cases hf3 : pyFindFrom '#' u start <;>
    simp only [] <;>
    first
    | exact hlen
    | (refine le_min ?_ ?_ <;>
        first
        | exact hlen
        | exact h1 _ hf1
        | exact h2 _ hf2
        | exact h3 _ hf3
        | (refine le_min ?_ ?_ <;>
            first
            | exact hlen
            | exact h1 _ hf1
            | exact h2 _ hf2
            | exact h3 _ hf3
            | (refine le_min ?_ ?_ <;>
                first
                | exact hlen
                | exact h1 _ hf1
                | exact h2 _ hf2
                | exact h3 _ hf3)))

theorem take_one_eq {c : Char} {l : Str} (h : l.take 1 = [c]) : ∃ t, l = c :: t := by
  cases l with
  | nil => simp at h
  | cons x t =>
    simp only [List.take_succ_cons, List.take_zero] at h
    injection h with h1 _
    exact ⟨t, by rw [h1]⟩

theorem splitnetloc_concat {n rest2 : Str}
    (hn : ∀ c ∈ n, ¬(c = '/' ∨ c = '?' ∨ c = '#'))
    (hr : rest2 = [] ∨ rest2.take 1 = ['/'] ∨ rest2.take 1 = ['?'] ∨
          rest2.take 1 = ['#']) :
    _splitnetloc ('/' :: '/' :: (n ++ rest2)) 2 = (n, rest2) := by
  have hdrop2 : ('/' :: '/' :: (n ++ rest2)).drop 2 = n ++ rest2 := rfl
  have hlen : ('/' :: '/' :: (n ++ rest2)).length = 2 + n.length + rest2.length := by
    simp only [List.length_cons, List.length_append]
    omega
  have hfind : ∀ c, (c = '/' ∨ c = '?' ∨ c = '#') →
      pyFindFrom c ('/' :: '/' :: (n ++ rest2)) 2
        = ((pyFind c rest2).map (· + n.length)).map (· + 2) := by
    intro c hc
    unfold pyFindFrom
    rw [hdrop2, pyFind_append_of_not_mem c rest2 (fun hm => hn c hm hc)]
  have hdelim : netlocDelim ('/' :: '/' :: (n ++ rest2)) 2 = 2 + n.length := by
    apply le_antisymm
    · rcases hr with hre | h1 | h1 | h1
      · subst hre
        have hle := netlocDelim_le_length ('/' :: '/' :: (n ++ [])) 2
        rw [hlen] at hle
        simp only [List.length_nil] at hle
        omega
      · obtain ⟨t, rfl⟩ := take_one_eq h1
        have hw := hfind '/' (by simp)
        rw [show pyFind '/' ('/' :: t) = some 0 by simp [pyFind]] at hw
        simp only [Option.map_some'] at hw
        have := netlocDelim_le_of_find (by simp) hw
        omega
      · obtain ⟨t, rfl⟩ := take_one_eq h1
        have hw := hfind '?' (by simp)
        rw [show pyFind '?' ('?' :: t) = some 0 by simp [pyFind]] at hw
        simp only [Option.map_some'] at hw
        have := netlocDelim_le_of_find (by simp) hw
        omega
      · obtain ⟨t, rfl⟩ := take_one_eq h1
        have hw := hfind '#' (by simp)
        rw [show pyFind '#' ('#' :: t) = some 0 by simp [pyFind]] at hw
        simp only [Option.map_some'] at hw
        have := netlocDelim_le_of_find (by simp) hw
        omega
    · apply le_netlocDelim (by omega)
      intro c hc w hw
      rw [hfind c hc] at hw
      cases hj : pyFind c rest2 with
      | none => rw [hj] at hw; cases hw
      | some j =>
        rw [hj] at hw
        simp only [Option.map_some', Option.some.injEq] at hw
        omega
  unfold _splitnetloc
  rw [hdelim, hdrop2]
  have h1 : (n ++ rest2).take (2 + n.length - 2) = n := by
    rw [show 2 + n.length - 2 = n.length by omega]
    exact List.take_left n rest2
  have h2 : ('/' :: '/' :: (n ++ rest2)).drop (2 + n.length) = rest2 := by
    rw [show ('/' :: '/' :: (n ++ rest2)) = ('/' :: '/' :: n) ++ rest2 by simp]
    exact List.drop_left' (by simp only [List.length_cons]; omega)
  rw [h1, h2]

theorem splitFirst_append (c : Char) {a : Str} (b : Str) (h : c ∉ a) :
    splitFirst c (a ++ c :: b) = (a, b) := by
  obtain ⟨h1, h2⟩ := takeWhile_append_sep c a b h
  unfold splitFirst
  rw [h1, h2]
  rfl

theorem splitnetloc_fst_no_delim (u : Str) :
    ∀ c ∈ (_splitnetloc u 2).1, ¬(c = '/' ∨ c = '?' ∨ c = '#') := by
  intro c hc hdelim
  simp only [_splitnetloc] at hc
  obtain ⟨j, hj, hjk⟩ := pyFind_lt_of_mem_take hc
  have hw : pyFindFrom c u 2 = some (j + 2) := by
    unfold pyFindFrom
    rw [hj]
    rfl
  have := netlocDelim_le_of_find hdelim hw
  omega

theorem afterScheme_parts (sch n P' q f : Str) (af : Bool)
    (hn : ∀ c ∈ n, ¬(c = '/' ∨ c = '?' ∨ c = '#'))
    (hbr : ¬ badBrackets n)
    (hP : P' = [] ∨ P'.take 1 = ['/'])
    (hPq : '?' ∉ P')
    (hfr : af = true → '#' ∉ P' ∧ '#' ∉ q)
    (hff : af = false → f = []) :
    afterScheme sch
      ('/' :: '/' :: (n ++ (P' ++ (if q = [] then [] else '?' :: q)
        ++ (if f = [] then [] else '#' :: f)))) af
      = .ok ⟨sch, n, P', q, f⟩ := by
  set T := P' ++ (if q = [] then [] else '?' :: q)
    ++ (if f = [] then [] else '#' :: f) with hT
  have hqmem : '#' ∉ (if q = [] then [] else '?' :: q) ∨ '#' ∈ q := by
    rcases Decidable.em ('#' ∈ q) with h2 | h2
    · exact Or.inr h2
    · left
      by_cases hq : q = [] <;> simp [hq, h2]
  have hhead : T = [] ∨ T.take 1 = ['/'] ∨ T.take 1 = ['?'] ∨ T.take 1 = ['#'] := by
    rcases hP with hP0 | hP1
    · subst hP0
      by_cases hq : q = []
      · by_cases hf2 : f = []
        · left
          simp [hT, hq, hf2]
        · right; right; right
          simp [hT, hq, hf2]
      · right; right; left
        simp [hT, hq]
    · right; left
      obtain ⟨t, hPt⟩ := take_one_eq hP1
      rw [hT, hPt]
      simp
  have hsplit := splitnetloc_concat hn hhead
  unfold afterScheme
  dsimp only
  have hc2 : ('/' :: '/' :: (n ++ T)).take 2 = ['/', '/'] := rfl
  simp only [if_pos hc2, hsplit]
  rw [if_neg hbr]
  cases af with
  | false =>
    have hf0 : f = [] := hff rfl
    subst hf0
    simp only [eq_self_iff_true, if_true, List.append_nil] at hT
    have hcond : ¬(false = true ∧ '#' ∈ T) := by simp
    rw [if_neg hcond, if_neg hcond]
    by_cases hq : q = []
    · subst hq
      simp only [eq_self_iff_true, if_true, List.append_nil] at hT
      rw [hT]
      rw [if_neg hPq, if_neg hPq]
    · rw [if_neg hq] at hT
      have hqm : '?' ∈ T := by rw [hT]; simp
      rw [if_pos hqm, if_pos hqm, hT, splitFirst_append '?' q hPq]
  | true =>
    obtain ⟨hfP, hfq⟩ := hfr rfl
    have hfQpart : '#' ∉ P' ++ (if q = [] then [] else '?' :: q) := by
      intro hm
      rcases List.mem_append.mp hm with hm1 | hm2
      · exact hfP hm1
      · rcases hqmem with hq1 | hq2
        · exact hq1 hm2
        · exact hfq hq2
    by_cases hf2 : f = []
    · subst hf2
      simp only [eq_self_iff_true, if_true, List.append_nil] at hT
      have hcond : ¬(true = true ∧ '#' ∈ T) := by
        rw [hT]
        simp [hfQpart]
      rw [if_neg hcond, if_neg hcond, hT]
      by_cases hq : q = []
      · subst hq
        simp only [eq_self_iff_true, if_true, List.append_nil]
        rw [if_neg hPq, if_neg hPq]
      · rw [if_neg hq]
        have hqm : '?' ∈ P' ++ '?' :: q := by simp
        rw [if_pos hqm, if_pos hqm, splitFirst_append '?' q hPq]
    · rw [if_neg hf2] at hT
      have hcond : true = true ∧ '#' ∈ T := by
        rw [hT]
        simp
      rw [if_pos hcond, if_pos hcond, hT, splitFirst_append '#' f hfQpart]
      by_cases hq : q = []
      · subst hq
        simp only [eq_self_iff_true, if_true, List.append_nil]
        rw [if_neg hPq, if_neg hPq]
      · rw [if_neg hq]
        have hqm : '?' ∈ P' ++ '?' :: q := by simp
        rw [if_pos hqm, if_pos hqm, splitFirst_append '?' q hPq]

theorem urlsplit_slashslash (body d : Str) (af : Bool) :
    urlsplit ('/' :: '/' :: body) d af = afterScheme d ('/' :: '/' :: body) af := by
  unfold urlsplit
  cases hi : pyFind ':' ('/' :: '/' :: body) with
  | none => rfl
  | some i =>
    dsimp only
    have hstep : pyFind ':' ('/' :: '/' :: body)
        = (pyFind ':' ('/' :: body)).map (· + 1) := by
      simp [pyFind]
    rw [hstep] at hi
    have hj : ∃ j, i = j + 1 := by
      cases hj2 : pyFind ':' ('/' :: body) with
      | none => rw [hj2] at hi; cases hi
      | some j =>
        rw [hj2] at hi
        simp only [Option.map_some', Option.some.injEq] at hi
        exact ⟨j, hi.symm⟩
    obtain ⟨j, rfl⟩ := hj
    have hslashmem : '/' ∈ ('/' :: '/' :: body).take (j + 1) := by
      simp [List.take_succ_cons]
    rw [if_pos (by omega : 0 < j + 1)]
    have hhttp : ¬('/' :: '/' :: body).take (j + 1) = ("http").toList := by
      intro he
      rw [he] at hslashmem
      exact absurd hslashmem (by decide)
    rw [if_neg hhttp]
    have hall : ¬(('/' :: '/' :: body).take (j + 1)).all
        (fun c => c ∈ scheme_chars) = true := by
      intro hall
      have := List.all_eq_true.mp hall _ hslashmem
      exact absurd (by simpa using this) (by decide : ('/' : Char) ∉ scheme_chars)
    rw [if_neg hall]

theorem urlsplit_scheme_prefix (s rest d : Str) (af : Bool)
    (hs : ∀ c ∈ s, c ∈ scheme_chars ∧ Char.toLower c = c) (hne : s ≠ []) :
    urlsplit (s ++ ':' :: rest) d af = afterScheme s rest af := by
  have hnc : ':' ∉ s := fun hm => absurd (hs _ hm).1 (by decide)
  have hfind : pyFind ':' (s ++ ':' :: rest) = some s.length :=
    pyFind_append_sep ':' s rest hnc
  unfold urlsplit
  rw [hfind]
  dsimp only
  rw [if_pos (List.length_pos.mpr hne)]
  have htake : (s ++ ':' :: rest).take s.length = s := List.take_left' rfl
  have hdrop : (s ++ ':' :: rest).drop (s.length + 1) = rest := by
    rw [show s ++ ':' :: rest = (s ++ [':']) ++ rest by simp]
    exact List.drop_left' (by simp)
  have hlower : pyLower s = s := by
    unfold pyLower
    rw [List.map_congr_left (fun c hc => (hs c hc).2)]
    exact List.map_id' s
  by_cases hhttp : (s ++ ':' :: rest).take s.length = ("http").toList
  · rw [if_pos hhttp, htake, hdrop, hlower]
  · rw [if_neg hhttp]
    have hall : ((s ++ ':' :: rest).take s.length).all
        (fun c => c ∈ scheme_chars) = true := by
      rw [htake]
      exact List.all_eq_true.mpr (fun c hc => by simpa using (hs c hc).1)
    rw [if_pos hall, htake, hdrop, hlower]

theorem afterScheme_scheme {sch u : Str} {af : Bool} {sr : SplitResult}
    (h : afterScheme sch u af = .ok sr) : sr.scheme = sch := by
  unfold afterScheme at h
  dsimp only at h
  split at h <;> split at h
  case isTrue.isTrue => exact absurd h (by simp)
  case isTrue.isFalse =>
    injection h with h1
    subst h1
    rfl
  case isFalse.isTrue => exact absurd h (by simp)
  case isFalse.isFalse =>
    injection h with h1
    subst h1
    rfl

theorem scheme_chars_lower :
    ∀ c ∈ scheme_chars,
      Char.toLower c ∈ scheme_chars ∧ Char.toLower (Char.toLower c) = Char.toLower c := by
  decide

theorem pyFind_lt_length {c : Char} {l : Str} {i : Nat}
    (h : pyFind c l = some i) : i < l.length := by
  induction l generalizing i with
  | nil => cases h
  | cons x xs ih =>
    simp only [pyFind] at h
    split at h
    · injection h with h1
      simp [← h1]
    · cases hj : pyFind c xs with
      | none => rw [hj] at h; cases h
      | some j =>
        rw [hj] at h
        simp only [Option.map_some', Option.some.injEq] at h
        have := ih hj
        simp only [List.length_cons]
        omega

theorem urlsplit_scheme_inv {u d : Str} {af : Bool} {sr : SplitResult}
    (h : urlsplit u d af = .ok sr) :
    sr.scheme = d ∨
      (sr.scheme ≠ [] ∧ ∀ c ∈ sr.scheme, c ∈ scheme_chars ∧ Char.toLower c = c) := by
  unfold urlsplit at h
  cases hi : pyFind ':' u with
  | none =>
    rw [hi] at h
    exact Or.inl (afterScheme_scheme h)
  | some i =>
    rw [hi] at h
    dsimp only at h
    by_cases h0 : 0 < i
    · rw [if_pos h0] at h
      have hlen : (pyLower (u.take i)).length ≠ 0 := by
        have hil := pyFind_lt_length hi
        simp only [pyLower, List.length_map, List.length_take]
        omega
      by_cases hhttp : u.take i = ("http").toList
      · rw [if_pos hhttp] at h
        have hsch := afterScheme_scheme h
        rw [hhttp] at hsch
        refine Or.inr ⟨?_, ?_⟩
        · rw [hsch]; decide
        · rw [hsch]; decide
      · rw [if_neg hhttp] at h
        by_cases hall : (u.take i).all (fun c => c ∈ scheme_chars) = true
        · rw [if_pos hall] at h
          have hsch := afterScheme_scheme h
          refine Or.inr ⟨by rw [hsch]; intro he; rw [he] at hlen; exact hlen rfl, ?_⟩
          intro c hc
          rw [hsch] at hc
          obtain ⟨c0, hc0, rfl⟩ := List.mem_map.mp hc
          have hc0s : c0 ∈ scheme_chars := by
            simpa using List.all_eq_true.mp hall _ hc0
          exact scheme_chars_lower c0 hc0s
        · rw [if_neg hall] at h
          exact Or.inl (afterScheme_scheme h)
    · rw [if_neg h0] at h
      exact Or.inl (afterScheme_scheme h)

theorem splitFirst_fst_not_mem (c : Char) (v : Str) : c ∉ (splitFirst c v).1 := by
  intro hm
  have := List.mem_takeWhile_imp hm
  simp at this

theorem mem_splitFirst_fst {x c : Char} {v : Str} (h : x ∈ (splitFirst c v).1) :
    x ∈ v := by
  unfold splitFirst at h
  exact (List.takeWhile_sublist _).mem h

theorem mem_splitFirst_snd {x c : Char} {v : Str} (h : x ∈ (splitFirst c v).2) :
    x ∈ v := by
  unfold splitFirst at h
  exact (List.dropWhile_sublist _).mem (List.drop_subset 1 _ h)

theorem strip_q_inv (c : Char) (v : Str) :
    c ∉ (if c ∈ v then (splitFirst c v).1 else v) := by
  by_cases hm : c ∈ v
  · rw [if_pos hm]
    exact splitFirst_fst_not_mem c v
  · rw [if_neg hm]
    exact hm

theorem strip_other_inv {x c : Char} {v : Str} (h : x ∉ v) :
    x ∉ (if c ∈ v then (splitFirst c v).1 else v) := by
  by_cases hm : c ∈ v
  · rw [if_pos hm]
    exact fun hx => h (mem_splitFirst_fst hx)
  · rw [if_neg hm]
    exact h

theorem strip_other_inv_snd {x c : Char} {v : Str} (h : x ∉ v) :
    x ∉ (if c ∈ v then (splitFirst c v).2 else ([] : Str)) := by
  by_cases hm : c ∈ v
  · rw [if_pos hm]
    exact fun hx => h (mem_splitFirst_snd hx)
  · rw [if_neg hm]
    simp

theorem frag_strip_inv (af : Bool) (v : Str) (haf : af = true) :
    '#' ∉ (if af = true ∧ '#' ∈ v then (splitFirst '#' v).1 else v) := by
  by_cases hm : '#' ∈ v
  · rw [if_pos ⟨haf, hm⟩]
    exact splitFirst_fst_not_mem '#' v
  · rw [if_neg (fun hc => hm hc.2)]
    exact hm

/-- Forward invariants of a successful `afterScheme`: the netloc contains no
`/`, `?` or `#` and its brackets are balanced, the path contains no `?`,
path and query contain no `#` when fragments are allowed, and the fragment
is empty when they are not. -/
theorem afterScheme_inv {sch u : Str} {af : Bool} {sr : SplitResult}
    (h : afterScheme sch u af = .ok sr) :
    (∀ c ∈ sr.netloc, ¬(c = '/' ∨ c = '?' ∨ c = '#')) ∧
    ¬ badBrackets sr.netloc ∧
    '?' ∉ sr.path ∧
    (af = true → '#' ∉ sr.path ∧ '#' ∉ sr.query) ∧
    (af = false → sr.fragment = []) := by
  unfold afterScheme at h
  dsimp only at h
  by_cases h2 : u.take 2 = ['/', '/']
  · simp only [if_pos h2] at h
    by_cases hbb : badBrackets (_splitnetloc u 2).1
    · rw [if_pos hbb] at h
      exact absurd h (by simp)
    · rw [if_neg hbb] at h
      injection h with h1
      subst h1
      refine ⟨splitnetloc_fst_no_delim u, hbb, strip_q_inv '?' _, ?_, ?_⟩
      · intro haf
        have hs2 := frag_strip_inv af ((_splitnetloc u 2).2) haf
        exact ⟨strip_other_inv hs2, strip_other_inv_snd hs2⟩
      · intro haf
        simp [haf]
  · simp only [if_neg h2] at h
    rw [if_neg (by decide : ¬ badBrackets ([] : Str))] at h
    injection h with h1
    subst h1
    refine ⟨by simp, show ¬ badBrackets ([] : Str) by decide, strip_q_inv '?' _, ?_, ?_⟩
    · intro haf
      have hs2 := frag_strip_inv af u haf
      exact ⟨strip_other_inv hs2, strip_other_inv_snd hs2⟩
    · intro haf
      simp [haf]

/-- Case analysis of a successful `urlparse`: the underlying `urlsplit`
succeeded, scheme/netloc/query/fragment pass through, and the path is
either params-split (parameter-using scheme with a `;` in the path) or
passed through with empty params. -/
theorem urlparse_cases {u d : Str} {af : Bool} {pr : ParseResult}
    (h : urlparse u d af = .ok pr) :
    ∃ sr : SplitResult, urlsplit u d af = .ok sr ∧
      pr.scheme = sr.scheme ∧ pr.netloc = sr.netloc ∧ pr.query = sr.query ∧
      pr.fragment = sr.fragment ∧
      ((sr.scheme ∈ uses_params ∧ ';' ∈ sr.path ∧
        pr.path = (_splitparams sr.path).1 ∧ pr.params = (_splitparams sr.path).2) ∨
       (¬(sr.scheme ∈ uses_params ∧ ';' ∈ sr.path) ∧
        pr.path = sr.path ∧ pr.params = [])) := by
  unfold urlparse at h
  cases hs : urlsplit u d af with
  | error e => rw [hs] at h; cases h
  | ok sr =>
    rw [hs] at h
    dsimp only at h
    by_cases hc : sr.scheme ∈ uses_params ∧ ';' ∈ sr.path
    · rw [if_pos hc] at h
      injection h with h1
      subst h1
      exact ⟨sr, rfl, rfl, rfl, rfl, rfl, Or.inl ⟨hc.1, hc.2, rfl, rfl⟩⟩
    · rw [if_neg hc] at h
      injection h with h1
      subst h1
      exact ⟨sr, rfl, rfl, rfl, rfl, rfl, Or.inr ⟨hc, rfl, rfl⟩⟩

/-- Every relative-resolution-eligible scheme is also netloc-using. -/
theorem uses_relative_subset_netloc : ∀ s ∈ uses_relative, s ∈ uses_netloc := by
  decide

theorem append_opt (X : Str) (c : Char) (q : Str) :
    (if q ≠ [] then X ++ c :: q else X)
      = X ++ (if q = [] then [] else c :: q) := by
  by_cases hq : q = [] <;> simp [hq]

theorem urlunsplit_slashfix_congr (s n u1 u2 q f : Str) (hn : n ≠ [])
    (h : slashfix u1 = slashfix u2) :
    urlunsplit s n u1 q f = urlunsplit s n u2 q f := by
  unfold urlunsplit
  rw [if_pos (Or.inl hn), if_pos (Or.inl hn), h]

theorem take_one_append {a : Str} (b : Str) (h : a ≠ []) :
    (a ++ b).take 1 = a.take 1 := by
  cases a with
  | nil => exact absurd rfl h
  | cons x t => rfl

theorem pyFind_le_sep (c : Char) (a b : Str) :
    ∃ i, pyFind c (a ++ c :: b) = some i ∧ i ≤ a.length := by
  by_cases hm : c ∈ a
  · obtain ⟨a1, a2, rfl, hna1⟩ := mem_decomp_first hm
    refine ⟨a1.length, ?_, by simp only [List.length_append, List.length_cons]; omega⟩
    rw [show (a1 ++ c :: a2) ++ c :: b = a1 ++ c :: (a2 ++ c :: b) by simp]
    exact pyFind_append_sep c a1 _ hna1
  · exact ⟨a.length, pyFind_append_sep c a b hm, le_refl _⟩

/-- Invariants of `_splitparams` on a path containing `;`: both halves draw
their characters from the path, the params half contains no `/`, and empty
params mean the path half either has no `;` at all or ends in a final
`/`-segment free of both `;` and `/`. -/
theorem inv_params {path P0 prm : Str} (hsemi : ';' ∈ path)
    (h : _splitparams path = (P0, prm)) :
    (∀ x ∈ P0, x ∈ path) ∧ (∀ x ∈ prm, x ∈ path) ∧ '/' ∉ prm ∧
    (prm = [] →
      ';' ∉ P0 ∨ ∃ preA s0, P0 = preA ++ '/' :: s0 ∧ '/' ∉ s0 ∧ ';' ∉ s0) := by
  rw [splitparams_eq_specFirst path hsemi] at h
  unfold splitparamsSpecFirst at h
  dsimp only at h
  by_cases hslash : '/' ∈ path
  · rw [if_pos hslash] at h
    obtain ⟨pre, suf, hu, hnsuf⟩ := mem_decomp_last hslash
    subst hu
    rw [pySplitAll_getLastD pre hnsuf] at h
    by_cases hsem2 : ';' ∈ suf
    · rw [if_pos hsem2] at h
      obtain ⟨s1, s2, hsuf, hns1⟩ := mem_decomp_first hsem2
      subst hsuf
      have hlen : (pre ++ '/' :: (s1 ++ ';' :: s2)).length - (s1 ++ ';' :: s2).length
          = pre.length + 1 := by
        simp only [List.length_append, List.length_cons]
        omega
      have htake : (pre ++ '/' :: (s1 ++ ';' :: s2)).take (pre.length + 1)
          = pre ++ ['/'] := by
        rw [show pre ++ '/' :: (s1 ++ ';' :: s2)
            = (pre ++ ['/']) ++ (s1 ++ ';' :: s2) by simp]
        exact List.take_left' (by simp)
      obtain ⟨hTW, hDW⟩ := takeWhile_append_sep ';' s1 s2 hns1
      rw [hlen, htake, hTW, hDW] at h
      injection h with h1 h2
      simp only [List.drop_succ_cons, List.drop_zero] at h2
      subst h1
      subst h2
      refine ⟨?_, ?_, ?_, ?_⟩
      · intro x hx
        simp only [List.mem_append, List.mem_cons, List.mem_singleton,
          List.not_mem_nil] at hx ⊢
        tauto
      · intro x hx
        simp only [List.mem_append, List.mem_cons] at hx ⊢
        tauto
      · intro hm
        exact hnsuf (by simp [hm])
      · intro _
        refine Or.inr ⟨pre, s1, by simp, fun hm => hnsuf (by simp [hm]), hns1⟩
    · rw [if_neg hsem2] at h
      injection h with h1 h2
      subst h1
      subst h2
      exact ⟨fun x hx => hx, by simp, by simp,
        fun _ => Or.inr ⟨pre, suf, rfl, hnsuf, hsem2⟩⟩
  · rw [if_neg hslash] at h
    obtain ⟨a, b, hu, hna⟩ := mem_decomp_first hsemi
    subst hu
    rw [pyFind_append_sep ';' a b hna] at h
    dsimp only at h
    have htake : (a ++ ';' :: b).take a.length = a := List.take_left' rfl
    have hdrop : (a ++ ';' :: b).drop (a.length + 1) = b := by
      rw [show a ++ ';' :: b = (a ++ [';']) ++ b by simp]
      exact List.drop_left' (by simp)
    rw [htake, hdrop] at h
    injection h with h1 h2
    subst h1
    subst h2
    refine ⟨?_, ?_, ?_, fun _ => Or.inl hna⟩
    · intro x hx
      simp [hx]
    · intro x hx
      simp [hx]
    · intro hm
      exact hslash (by simp [hm])

/-- Re-splitting a path of the form `A ++ ';' :: prm` where `A` starts with
`/` and `prm` is `/`-free recombines to the same string with nonempty
params. -/
theorem splitparams_recombine {A prm : Str}
    (hA : A.take 1 = ['/']) (hprm : '/' ∉ prm) (hne : prm ≠ []) :
    (_splitparams (A ++ ';' :: prm)).1 ++ ';' :: (_splitparams (A ++ ';' :: prm)).2
      = A ++ ';' :: prm ∧ (_splitparams (A ++ ';' :: prm)).2 ≠ [] := by
  have hsemi : (';' : Char) ∈ A ++ ';' :: prm := by simp
  obtain ⟨tA, hAt⟩ := take_one_eq hA
  have hslashA : ('/' : Char) ∈ A := by rw [hAt]; simp
  obtain ⟨preA, s0, hAd, hs0⟩ := mem_decomp_last hslashA
  have hud : A ++ ';' :: prm = preA ++ '/' :: (s0 ++ ';' :: prm) := by
    rw [hAd]
    simp
  have hnosuf : ('/' : Char) ∉ s0 ++ ';' :: prm := by
    intro hm
    rcases List.mem_append.mp hm with h1 | h1
    · exact hs0 h1
    · rcases List.mem_cons.mp h1 with he | h1
      · exact absurd he (by decide)
      · exact hprm h1
  rw [splitparams_eq_specFirst _ hsemi]
  unfold splitparamsSpecFirst
  dsimp only
  rw [if_pos (List.mem_append.mpr (Or.inl hslashA))]
  rw [hud, pySplitAll_getLastD preA hnosuf]
  rw [if_pos (by simp : (';' : Char) ∈ s0 ++ ';' :: prm)]
  obtain ⟨w1, w2, hw, hnw1⟩ := mem_decomp_first (by simp : (';' : Char) ∈ s0 ++ ';' :: prm)
  have hw2ne : w2 ≠ [] := by
    obtain ⟨i, hi, hile⟩ := pyFind_le_sep ';' s0 prm
    have hi2 : pyFind ';' (s0 ++ ';' :: prm) = some w1.length := by
      rw [hw]
      exact pyFind_append_sep ';' w1 w2 hnw1
    rw [hi2] at hi
    injection hi with hi
    have hlens := congrArg List.length hw
    simp only [List.length_append, List.length_cons] at hlens
    have hpl : 0 < prm.length := List.length_pos.mpr hne
    intro hnil
    rw [hnil] at hlens
    simp only [List.length_nil] at hlens
    omega
  have hlen2 : (preA ++ '/' :: (s0 ++ ';' :: prm)).length - (s0 ++ ';' :: prm).length
      = preA.length + 1 := by
    simp only [List.length_append, List.length_cons]
    omega
  have htake2 : (preA ++ '/' :: (s0 ++ ';' :: prm)).take (preA.length + 1)
      = preA ++ ['/'] := by
    rw [show preA ++ '/' :: (s0 ++ ';' :: prm)
        = (preA ++ ['/']) ++ (s0 ++ ';' :: prm) by simp]
    exact List.take_left' (by simp)
  rw [hlen2, htake2, hw]
  obtain ⟨hTW, hDW⟩ := takeWhile_append_sep ';' w1 w2 hnw1
  rw [hTW, hDW]
  refine ⟨?_, by simpa using hw2ne⟩
  simp only [List.drop_succ_cons, List.drop_zero]
  simp

/-- A path whose final `/`-segment is free of `;` and `/` is returned whole
by `_splitparams`, with empty params. -/
theorem splitparams_keep {A : Str} (preA s0 : Str)
    (hd : A = preA ++ '/' :: s0) (hs0 : '/' ∉ s0) (hs0semi : ';' ∉ s0)
    (hsemi : ';' ∈ A) :
    _splitparams A = (A, []) := by
  subst hd
  rw [splitparams_eq_specFirst _ hsemi]
  unfold splitparamsSpecFirst
  dsimp only
  rw [if_pos (by simp : ('/' : Char) ∈ preA ++ '/' :: s0)]
  rw [pySplitAll_getLastD preA hs0]
  rw [if_neg hs0semi]

/-- Canonical shape of `urlunsplit` with a nonempty netloc: optional
`scheme:` prefix, then `//`, the netloc, the slash-fixed path and the
optional `?query` and `#fragment` parts. -/
theorem urlunsplit_canon (s n P q f : Str) (hn : n ≠ []) :
    urlunsplit s n P q f
      = (if s = [] then [] else s ++ [':'])
        ++ ('/' :: '/' :: (n ++ (slashfix P
             ++ (if q = [] then [] else '?' :: q)
             ++ (if f = [] then [] else '#' :: f)))) := by
  unfold urlunsplit
  rw [if_pos (Or.inl hn)]
  by_cases hs : s = [] <;> by_cases hq : q = [] <;> by_cases hf : f = [] <;>
    simp [hs, hq, hf, List.append_assoc]

/-- Re-splitting a canonically unsplit URL with nonempty netloc (under the
default scheme `s` itself) recovers its components. -/
theorem urlsplit_canon (s n P' q f : Str) (af : Bool)
    (hschars : s = [] ∨ (s ≠ [] ∧ ∀ c ∈ s, c ∈ scheme_chars ∧ Char.toLower c = c))
    (hn : ∀ c ∈ n, ¬(c = '/' ∨ c = '?' ∨ c = '#'))
    (hbr : ¬ badBrackets n)
    (hP : P' = [] ∨ P'.take 1 = ['/'])
    (hPq : '?' ∉ P')
    (hfr : af = true → '#' ∉ P' ∧ '#' ∉ q)
    (hff : af = false → f = []) :
    urlsplit ((if s = [] then [] else s ++ [':'])
        ++ ('/' :: '/' :: (n ++ (P' ++ (if q = [] then [] else '?' :: q)
             ++ (if f = [] then [] else '#' :: f))))) s af
      = .ok ⟨s, n, P', q, f⟩ := by
  rcases hschars with hs0 | ⟨hsne, hsc⟩
  · subst hs0
    rw [if_pos rfl, List.nil_append, urlsplit_slashslash]
    exact afterScheme_parts [] n P' q f af hn hbr hP hPq hfr hff
  · rw [if_neg hsne, List.append_assoc, List.singleton_append,
      urlsplit_scheme_prefix s _ s af hsc hsne]
    exact afterScheme_parts s n P' q f af hn hbr hP hPq hfr hff

theorem slashfix_append_params (path prm : Str) (hne : prm ≠ ([] : Str)) :
    ∃ A : Str, slashfix (path ++ ';' :: prm) = A ++ ';' :: prm ∧
      A.take 1 = ['/'] ∧ ∀ x ∈ A, x ∈ path ∨ x = '/' := by
  by_cases h1 : (path ++ ';' :: prm).take 1 = ['/']
  · refine ⟨path, slashfix_of_head h1, ?_, fun x hx => Or.inl hx⟩
    have hpne : path ≠ [] := by
      intro h0
      rw [h0] at h1
      simp at h1
    rw [take_one_append _ hpne] at h1
    exact h1
  · have hP'd : slashfix (path ++ ';' :: prm) = '/' :: (path ++ ';' :: prm) := by
      unfold slashfix
      rw [if_pos ⟨by simp, h1⟩]
    refine ⟨'/' :: path, by rw [hP'd]; rfl, rfl, fun x hx => ?_⟩
    rcases List.mem_cons.mp hx with he | hm
    · exact Or.inr he
    · exact Or.inl hm

/-- Resolution is stable on the result of joining a same-scheme reference
that carries its own nonempty authority: resolving the first result against
the same base reproduces it. -/
theorem urljoin_netloc_stable (base url : Str) (af : Bool)
    (pb pr : ParseResult) (r : Str)
    (hbase : base ≠ []) (hurl : url ≠ [])
    (hpb : urlparse base [] af = .ok pb)
    (hpr : urlparse url pb.scheme af = .ok pr)
    (heq : pr.scheme = pb.scheme) (hrel : pr.scheme ∈ uses_relative)
    (hnet : pr.netloc ≠ [])
    (hr : urljoin base url af = .ok r) :
    urljoin base r af = .ok r := by
  have hnotfor : ¬(pr.scheme ≠ pb.scheme ∨ pr.scheme ∉ uses_relative) := by
    intro hor
    rcases hor with h1 | h1
    · exact h1 heq
    · exact h1 hrel
  have hnetuse : pr.scheme ∈ uses_netloc := uses_relative_subset_netloc _ hrel
  unfold urljoin at hr
  rw [if_neg hbase, if_neg hurl] at hr
  simp only [hpb, hpr] at hr
  unfold joinParsed at hr
  rw [if_neg hnotfor, if_pos ⟨hnetuse, hnet⟩] at hr
  injection hr with hr
  obtain ⟨sr, hsplit, hps, hpn, hpq, hpf, hdisj⟩ := urlparse_cases hpr
  obtain ⟨sch0, hsch0⟩ := urlsplit_eq_afterScheme url pb.scheme af
  rw [hsch0] at hsplit
  obtain ⟨hnchars0, hbr0, hq0, hfr0, hff0⟩ := afterScheme_inv hsplit
  obtain ⟨srb, hsplitb, hpsb, -, -, -, -⟩ := urlparse_cases hpb
  have hschars : pr.scheme = [] ∨
      (pr.scheme ≠ [] ∧ ∀ c ∈ pr.scheme, c ∈ scheme_chars ∧ Char.toLower c = c) := by
    rw [heq, hpsb]
    exact urlsplit_scheme_inv hsplitb
  have hmemP : ∀ x ∈ pr.path, x ∈ sr.path := by
    rcases hdisj with ⟨-, hsemi0, hfst, hsnd⟩ | ⟨-, hfst, -⟩
    · have hse : _splitparams sr.path = (pr.path, pr.params) := by rw [hfst, hsnd]
      exact (inv_params hsemi0 hse).1
    · rw [hfst]
      exact fun x hx => hx
  have hmemprm : ∀ x ∈ pr.params, x ∈ sr.path := by
    rcases hdisj with ⟨-, hsemi0, hfst, hsnd⟩ | ⟨-, -, hsnd⟩
    · have hse : _splitparams sr.path = (pr.path, pr.params) := by rw [hfst, hsnd]
      exact (inv_params hsemi0 hse).2.1
    · rw [hsnd]
      simp
  have hslashprm : '/' ∉ pr.params := by
    rcases hdisj with ⟨-, hsemi0, hfst, hsnd⟩ | ⟨-, -, hsnd⟩
    · have hse : _splitparams sr.path = (pr.path, pr.params) := by rw [hfst, hsnd]
      exact (inv_params hsemi0 hse).2.2.1
    · rw [hsnd]
      simp
  have hn' : ∀ c ∈ pr.netloc, ¬(c = '/' ∨ c = '?' ∨ c = '#') := by
    rw [hpn]
    exact hnchars0
  have hbr' : ¬ badBrackets pr.netloc := by
    rw [hpn]
    exact hbr0
  have hPq' : '?' ∉ pr.path := fun hm => hq0 (hmemP _ hm)
  have hfr' : af = true → ('#' ∉ pr.path ∧ '#' ∉ pr.params) ∧ '#' ∉ pr.query := by
    intro haf
    obtain ⟨hp1, hq1⟩ := hfr0 haf
    exact ⟨⟨fun hm => hp1 (hmemP _ hm), fun hm => hp1 (hmemprm _ hm)⟩,
      by rw [hpq]; exact hq1⟩
  have hff' : af = false → pr.fragment = [] := by
    intro haf
    rw [hpf]
    exact hff0 haf
  obtain ⟨P, hPd, hPdef⟩ : ∃ P : Str,
      P = (if pr.params ≠ [] then pr.path ++ ';' :: pr.params else pr.path) ∧
      r = urlunsplit pr.scheme pr.netloc P pr.query pr.fragment :=
    ⟨_, rfl, by rw [← hr]; rfl⟩
  have hcanon : r = (if pr.scheme = [] then [] else pr.scheme ++ [':'])
      ++ ('/' :: '/' :: (pr.netloc ++ (slashfix P
           ++ (if pr.query = [] then [] else '?' :: pr.query)
           ++ (if pr.fragment = [] then [] else '#' :: pr.fragment)))) := by
    rw [hPdef, urlunsplit_canon _ _ _ _ _ hnet]
  have hrne : r ≠ [] := by
    rw [hcanon]
    intro h0
    rcases List.append_eq_nil.mp h0 with ⟨-, h2⟩
    cases h2
  have hmemPP : ∀ x ∈ P, x ∈ pr.path ∨ x = ';' ∨ x ∈ pr.params := by
    intro x hx
    rw [hPd] at hx
    by_cases hpe : pr.params ≠ []
    · rw [if_pos hpe] at hx
      rcases List.mem_append.mp hx with h1 | h1
      · exact Or.inl h1
      · rcases List.mem_cons.mp h1 with he | h1
        · exact Or.inr (Or.inl he)
        · exact Or.inr (Or.inr h1)
    · rw [if_neg hpe] at hx
      exact Or.inl hx
  have hq3 : '?' ∉ slashfix P := by
    intro hm
    rcases mem_slashfix hm with h1 | h1
    · rcases hmemPP _ h1 with h2 | h2 | h2
      · exact hPq' h2
      · exact absurd h2 (by decide)
      · exact hq0 (hmemprm _ h2)
    · exact absurd h1 (by decide)
  have hf3 : af = true → '#' ∉ slashfix P := by
    intro haf hm
    rcases mem_slashfix hm with h1 | h1
    · rcases hmemPP _ h1 with h2 | h2 | h2
      · exact (hfr' haf).1.1 h2
      · exact absurd h2 (by decide)
      · exact (hfr' haf).1.2 h2
    · exact absurd h1 (by decide)
  have hHgen : slashfix P = [] ∨ (slashfix P).take 1 = ['/'] := by
    by_cases hP0 : P = []
    · left
      rw [hP0]
      rfl
    · right
      exact slashfix_head hP0
  have hresplit_r : urlsplit r pb.scheme af
      = .ok ⟨pr.scheme, pr.netloc, slashfix P, pr.query, pr.fragment⟩ := by
    rw [hcanon, ← heq]
    exact urlsplit_canon pr.scheme pr.netloc (slashfix P) pr.query pr.fragment af
      hschars hn' hbr' hHgen hq3 (fun haf => ⟨hf3 haf, (hfr' haf).2⟩) hff'
  unfold urljoin
  rw [if_neg hbase, if_neg hrne]
  simp only [hpb]
  by_cases hprmnil : pr.params = []
  · have hPeq : P = pr.path := by
      rw [hPd, if_neg (fun h => h hprmnil)]
    have hressplit : _splitparams (slashfix P) = (slashfix P, []) ∨
        ¬(pr.scheme ∈ uses_params ∧ ';' ∈ slashfix P) := by
      by_cases huse : pr.scheme ∈ uses_params ∧ ';' ∈ slashfix P
      · left
        have hsemiP : ';' ∈ pr.path := by
          rcases mem_slashfix huse.2 with h1 | h1
          · rw [hPeq] at h1
            exact h1
          · exact absurd h1 (by decide)
        rcases hdisj with ⟨hup0, hsemi0, hfst, hsnd⟩ | ⟨hnc, hfst, hsnd⟩
        · have hse : _splitparams sr.path = (pr.path, pr.params) := by
            rw [hfst, hsnd]
          have h4 := (inv_params hsemi0 hse).2.2.2 hprmnil
          rcases h4 with hnosemi | ⟨preA, s0, hdec, hns, hnsemi⟩
          · exact absurd hsemiP hnosemi
          · by_cases hh : pr.path.take 1 = ['/']
            · rw [hPeq, slashfix_of_head hh]
              exact splitparams_keep preA s0 hdec hns hnsemi hsemiP
            · have hpne : pr.path ≠ [] := by
                rw [hdec]
                simp
              have hsf : slashfix pr.path = '/' :: pr.path := by
                unfold slashfix
                rw [if_pos ⟨hpne, hh⟩]
              rw [hPeq, hsf]
              exact splitparams_keep ('/' :: preA) s0 (by rw [hdec]; rfl) hns hnsemi
                (List.mem_cons_of_mem _ hsemiP)
        · exfalso
          apply hnc
          refine ⟨?_, ?_⟩
          · rw [← hps]
            exact huse.1
          · rw [← hfst]
            exact hsemiP
      · right
        exact huse
    have hppr' : urlparse r pb.scheme af
        = .ok ⟨pr.scheme, pr.netloc, slashfix P, [], pr.query, pr.fragment⟩ := by
      unfold urlparse
      rw [hresplit_r]
      dsimp only
      rcases hressplit with hsp | hno
      · by_cases huse : pr.scheme ∈ uses_params ∧ ';' ∈ slashfix P
        · rw [if_pos huse, hsp]
        · rw [if_neg huse]
      · rw [if_neg hno]
    have hjoin : joinParsed pb
        ⟨pr.scheme, pr.netloc, slashfix P, [], pr.query, pr.fragment⟩ r = r := by
      unfold joinParsed
      dsimp only
      rw [if_neg hnotfor, if_pos ⟨hnetuse, hnet⟩]
      have hstep : urlunparse pr.scheme pr.netloc (slashfix P) [] pr.query pr.fragment
          = urlunsplit pr.scheme pr.netloc (slashfix P) pr.query pr.fragment := rfl
      rw [hstep, hPdef]
      exact urlunsplit_slashfix_congr pr.scheme pr.netloc (slashfix P) P pr.query
        pr.fragment hnet (slashfix_idem P)
    simp only [hppr']
    rw [hjoin]
  · have hPeq : P = pr.path ++ ';' :: pr.params := by
      rw [hPd, if_pos hprmnil]
    obtain ⟨A, hAeq0, hA1, hAmem⟩ := slashfix_append_params pr.path pr.params hprmnil
    have hAeq : slashfix P = A ++ ';' :: pr.params := by
      rw [hPeq]
      exact hAeq0
    obtain ⟨hrecomb, hf2ne⟩ := splitparams_recombine hA1 hslashprm hprmnil
    have hup : pr.scheme ∈ uses_params := by
      rcases hdisj with ⟨hup0, -, -, -⟩ | ⟨-, -, hsnd⟩
      · rw [hps]
        exact hup0
      · exact absurd hsnd hprmnil
    have huse : pr.scheme ∈ uses_params ∧ ';' ∈ slashfix P :=
      ⟨hup, by rw [hAeq]; simp⟩
    have hppr' : urlparse r pb.scheme af
        = .ok ⟨pr.scheme, pr.netloc,
               (_splitparams (A ++ ';' :: pr.params)).1,
               (_splitparams (A ++ ';' :: pr.params)).2,
               pr.query, pr.fragment⟩ := by
      unfold urlparse
      rw [hresplit_r]
      dsimp only
      rw [if_pos huse, hAeq]
    have hjoin : joinParsed pb
        ⟨pr.scheme, pr.netloc, (_splitparams (A ++ ';' :: pr.params)).1,
         (_splitparams (A ++ ';' :: pr.params)).2, pr.query, pr.fragment⟩ r = r := by
      unfold joinParsed
      dsimp only
      rw [if_neg hnotfor, if_pos ⟨hnetuse, hnet⟩]
      have hstep : urlunparse pr.scheme pr.netloc
          (_splitparams (A ++ ';' :: pr.params)).1
          (_splitparams (A ++ ';' :: pr.params)).2 pr.query pr.fragment
          = urlunsplit pr.scheme pr.netloc
            ((_splitparams (A ++ ';' :: pr.params)).1
              ++ ';' :: (_splitparams (A ++ ';' :: pr.params)).2)
            pr.query pr.fragment := by
        unfold urlunparse
        dsimp only
        rw [if_pos hf2ne]
      rw [hstep, hrecomb, ← hAeq, hPdef]
      exact urlunsplit_slashfix_congr pr.scheme pr.netloc (slashfix P) P pr.query
        pr.fragment hnet (slashfix_idem P)
    simp only [hppr']
    rw [hjoin]

/-- C9 (amended): for non-empty base and reference, resolution applied to
its own result is stable whenever the reference's parsed scheme differs from
the base's, or is not relative-resolution eligible, or the reference carries
its own nonempty authority: `urljoin base (urljoin base ref) = urljoin base
ref`.  (For a same-scheme authority-less absolute reference idempotence can
fail, see the counterexample.) -/
theorem urljoin_idempotent_absolute (base url : Str) (af : Bool)
    (pb pr : ParseResult) (r : Str)
    (hbase : base ≠ []) (hurl : url ≠ [])
    (hpb : urlparse base [] af = .ok pb)
    (hpr : urlparse url pb.scheme af = .ok pr)
    (habs : pr.scheme ≠ pb.scheme ∨ pr.scheme ∉ uses_relative ∨ pr.netloc ≠ [])
    (hr : urljoin base url af = .ok r) :
    urljoin base r af = .ok r := by
  by_cases hfor : pr.scheme ≠ pb.scheme ∨ pr.scheme ∉ uses_relative
  · have h1 : urljoin base url af = .ok url :=
      urljoin_foreign_scheme hbase hurl hpb hpr hfor
    rw [h1] at hr
    injection hr with hr
    subst hr
    exact h1
  · have heq : pr.scheme = pb.scheme := by
      by_contra hne
      exact hfor (Or.inl hne)
    have hrel : pr.scheme ∈ uses_relative := by
      by_contra hni
      exact hfor (Or.inr hni)
    have hnet : pr.netloc ≠ [] := by
      rcases habs with h1 | h2 | h3
      · exact absurd heq h1
      · exact absurd hrel h2
      · exact h3
    exact urljoin_netloc_stable base url af pb pr r hbase hurl hpb hpr heq hrel hnet hr

theorem urljoin_idempotent_absolute_witness :
    urljoin ("http://a/b").toList ("http://h/p;x?y").toList true
      = .ok (("http://h/p;x?y").toList) :=
  urljoin_idempotent_absolute ("http://a/b").toList ("http://h/p;x?y").toList true
    ⟨("http").toList, ("a").toList, ("/b").toList, [], [], []⟩
    ⟨("http").toList, ("h").toList, ("/p").toList, ("x").toList, ("y").toList, []⟩
    ("http://h/p;x?y").toList
    (by simp) (by simp) rfl rfl (Or.inr (Or.inr (by simp))) rfl

end Urlparse
